import Mathlib

/-!
Verification of the cc9 token parser (`src/cc9/token_parser.py`).

The Python module defines:
  * `NodeKind` / `Node`: the AST node model,
  * `LocalVariable` / `LocalVariableOperator`: a singly linked, append-only
    local-variable symbol table with a tail cursor,
  * `Parser`: a recursive-descent parser over a token cursor.

We embed these shallowly.  The token cursor comes from the external
`tokenizer` module (out of scope for this repository); following the
interface it exposes (`chack_type`, `consume`, `get_value`,
`proceed_cursor`), a cursor is a list of remaining tokens, where a
token is a number, an identifier, a reserved symbol, or end-of-file.
Python's unbounded recursion is modelled with an explicit fuel
parameter; running out of fuel is a distinguished error that never
occurs for adequate fuel on concrete inputs.
-/

/-- Token kinds exposed by the tokenizer interface. -/
inductive TokenKind where
  | NUMBER
  | IDENTIFIER
  | RESERVED
  | EOF
deriving DecidableEq, Repr

/-- A lexical token: numeric literal, identifier, reserved symbol, or EOF. -/
inductive Token where
  | number (v : Int)
  | identifier (s : String)
  | reserved (s : String)
  | eof
deriving DecidableEq, Repr

/-- The kind of a token. -/
def Token.kind : Token → TokenKind
  | .number _ => .NUMBER
  | .identifier _ => .IDENTIFIER
  | .reserved _ => .RESERVED
  | .eof => .EOF

/-- `TokenOperator.chack_type`: does the current token have kind `k`? -/
def chack_type (k : TokenKind) : List Token → Bool
  | [] => false
  | t :: _ => t.kind == k

/-- `TokenOperator.consume`: if the current token is the reserved symbol `s`,
advance past it and report `true`; otherwise leave the cursor untouched. -/
def consume (s : String) : List Token → Bool × List Token
  | Token.reserved r :: ts => if r = s then (true, ts) else (false, Token.reserved r :: ts)
  | ts => (false, ts)

/-- Payload of a `Node.value` field (`Union[int, str, None]` in Python). -/
inductive Value where
  | intVal (v : Int)
  | strVal (s : String)
deriving DecidableEq, Repr

/-- `NodeKind` from the source (the `IntEnum` tags). -/
inductive NodeKind where
  | ADD
  | SUB
  | MUL
  | DIV
  | GREATER
  | GREATER_EQUAL
  | LOWER
  | LOWER_EQUAL
  | EQUAL
  | NOT_EQUAL
  | ASSIGN
  | LOCAL_VAR
  | NUMBER
deriving DecidableEq, Repr

/-- The AST `Node` class: every field is optional exactly as in the source. -/
inductive Node where
  | mk (value : Option Value) (kind : NodeKind) (offset : Option Nat)
       (left_hand : Option Node) (right_hand : Option Node)

mutual

def nodeDecEq : (a b : Node) → Decidable (a = b)
  | .mk v1 k1 o1 l1 r1, .mk v2 k2 o2 l2 r2 =>
    match decEq v1 v2, decEq k1 k2, decEq o1 o2,
          optNodeDecEq l1 l2, optNodeDecEq r1 r2 with
    | isTrue h1, isTrue h2, isTrue h3, isTrue h4, isTrue h5 =>
      isTrue (by rw [h1, h2, h3, h4, h5])
    | isFalse h, _, _, _, _ =>
      isFalse (fun hh => by injection hh with e1 e2 e3 e4 e5; exact h e1)
    | _, isFalse h, _, _, _ =>
      isFalse (fun hh => by injection hh with e1 e2 e3 e4 e5; exact h e2)
    | _, _, isFalse h, _, _ =>
      isFalse (fun hh => by injection hh with e1 e2 e3 e4 e5; exact h e3)
    | _, _, _, isFalse h, _ =>
      isFalse (fun hh => by injection hh with e1 e2 e3 e4 e5; exact h e4)
    | _, _, _, _, isFalse h =>
      isFalse (fun hh => by injection hh with e1 e2 e3 e4 e5; exact h e5)

def optNodeDecEq : (a b : Option Node) → Decidable (a = b)
  | none, none => isTrue rfl
  | some x, some y =>
    match nodeDecEq x y with
    | isTrue h => isTrue (by rw [h])
    | isFalse h => isFalse (fun hh => by injection hh with e; exact h e)
  | none, some _ => isFalse (fun hh => by injection hh)
  | some _, none => isFalse (fun hh => by injection hh)

end

instance : DecidableEq Node := nodeDecEq

/-- `Parser.create_new_node`: fresh node with the given fields, offset unset. -/
def create_new_node (value : Option Value) (kind : NodeKind)
    (left_hand : Option Node) (right_hand : Option Node) : Node :=
  Node.mk value kind none left_hand right_hand

/-- Binary-operator node as built by the grammar rules: value is the
operator text, both children present. -/
def bin_node (op : String) (k : NodeKind) (n m : Node) : Node :=
  create_new_node (some (Value.strVal op)) k (some n) (some m)

/-- Number node as built by `primary` (and by `unary` for the literal 0). -/
def number_node (v : Int) : Node :=
  create_new_node (some (Value.intVal v)) NodeKind.NUMBER none none

/-- The node `create_new_local_var_node` returns: a `LOCAL_VAR` node whose
value is the name and whose `offset` field is then filled in. -/
def local_var_node (name : String) (off : Nat) : Node :=
  Node.mk (some (Value.strVal name)) NodeKind.LOCAL_VAR (some off) none none

/-- `unary`'s desugaring of a leading minus: `0 - primary`. -/
def zero_minus (m : Node) : Node :=
  create_new_node none NodeKind.SUB (some (number_node 0)) (some m)

/-- Errors raised by `LocalVariableOperator`: the two chain-is-empty
`AttributeError`s and `find`'s `LookupError`. -/
inductive TableErr where
  | emptyChainGet
  | emptyChainProceed
  | lookupError
deriving DecidableEq, Repr

/-- State of `LocalVariableOperator`: the chain of `(name, offset)` entries
hanging off the sentinel head, plus the cursor as an index into the chain
(`none` models a `None` cursor). -/
structure LVarState where
  chain : List (String × Nat)
  cursor : Option Nat
deriving DecidableEq, Repr

/-- The fresh table built by `LocalVariableOperator.__init__`. -/
def freshLVar : LVarState := ⟨[], none⟩

/-- `LocalVariableOperator.get_offset`: offset of the node the cursor points
at; `AttributeError` when there is no such node. -/
def get_offset (s : LVarState) : Except TableErr Nat :=
  match s.cursor with
  | none => .error .emptyChainGet
  | some i =>
    match s.chain[i]? with
    | none => .error .emptyChainGet
    | some e => .ok e.2

/-- `LocalVariableOperator.proceed_pointer`: advance the cursor to the next
node; both failure paths surface as the chain-is-empty `AttributeError`. -/
def proceed_pointer (s : LVarState) : Except TableErr LVarState :=
  match s.cursor with
  | none => .error .emptyChainProceed
  | some i =>
    match s.chain[i+1]? with
    | none => .error .emptyChainProceed
    | some _ => .ok ⟨s.chain, some (i+1)⟩

/-- `LocalVariableOperator.find`: scan the chain in insertion order for the
first entry with the given name and yield its offset (the source returns the
entry object and the caller reads `.offset`); `LookupError` when absent. -/
def find : List (String × Nat) → String → Except TableErr Nat
  | [], _ => .error .lookupError
  | (n, off) :: rest, name => if n = name then .ok off else find rest name

/-- `Parser.create_new_local_var_node`: look the name up; on `LookupError`
allocate the next offset (8 for an empty chain, tail offset + 8 otherwise),
link the new entry after the cursor and advance the cursor.  Returns the
`LOCAL_VAR` node together with the updated table state. -/
def create_new_local_var_node (s : LVarState) (name : String) :
    Except TableErr (Node × LVarState) :=
  match find s.chain name with
  | .ok off => .ok (local_var_node name off, s)
  | .error _ =>
    match s.cursor with
    | none => .ok (local_var_node name 8, ⟨[(name, 8)], some 0⟩)
    | some i =>
      match get_offset s with
      | .error e => .error e
      | .ok base =>
        match proceed_pointer ⟨s.chain.take (i+1) ++ [(name, base + 8)], s.cursor⟩ with
        | .error e => .error e
        | .ok s2 => .ok (local_var_node name (base + 8), s2)

/-- Run `create_new_local_var_node` over a whole sequence of identifier
occurrences, collecting the returned nodes — the exact sequence of calls the
parser makes while reading identifiers. -/
def processNames : List String → LVarState → Except TableErr (List Node × LVarState)
  | [], s => .ok ([], s)
  | x :: xs, s =>
    match create_new_local_var_node s x with
    | .error e => .error e
    | .ok (node, s1) =>
      match processNames xs s1 with
      | .error e => .error e
      | .ok (nodes, s2) => .ok (node :: nodes, s2)

/-- Distinct names of a sequence in first-seen order, given the names already
seen (in order). -/
def firstSeenFrom : List String → List String → List String
  | _, [] => []
  | seen, x :: xs =>
    if x ∈ seen then firstSeenFrom seen xs else x :: firstSeenFrom (seen ++ [x]) xs

/-- Index of the first occurrence of a name in a list (length if absent). -/
def idxOfName (x : String) : List String → Nat
  | [] => 0
  | y :: ys => if y = x then 0 else idxOfName x ys + 1

/-- The chain the table holds after the distinct names `ds` were allocated in
order, starting from byte offset `k`: the i-th name maps to `k + 8 * (i+1)`. -/
def assignOffsets : Nat → List String → List (String × Nat)
  | _, [] => []
  | k, x :: xs => (x, k + 8) :: assignOffsets (k + 8) xs

/-- Canonical table state after allocating the distinct names `ds`:
chain as above, cursor on the tail entry. -/
def stateOf (ds : List String) : LVarState :=
  ⟨assignOffsets 0 ds, if ds.isEmpty then none else some (ds.length - 1)⟩

/-- Does an `Except` hold a success value? -/
def isOkE {ε α : Type} : Except ε α → Bool
  | .ok _ => true
  | .error _ => false

theorem assignOffsets_length (k : Nat) (ds : List String) :
    (assignOffsets k ds).length = ds.length := by
  induction ds generalizing k with
  | nil => rfl
  | cons d ds ih => simp [assignOffsets, ih]

theorem assignOffsets_getElem? (ds : List String) (k i : Nat) :
    (assignOffsets k ds)[i]? = ds[i]?.map (fun x => (x, k + 8 * (i + 1))) := by
  induction ds generalizing k i with
  | nil => simp [assignOffsets]
  | cons d ds ih =>
    cases i with
    | zero => simp [assignOffsets]
    | succ j =>
      simp only [assignOffsets, List.getElem?_cons_succ, ih (k + 8) j]
      cases ds[j]? with
      | none => rfl
      | some x => simp; ring

theorem assignOffsets_append (k : Nat) (l1 l2 : List String) :
    assignOffsets k (l1 ++ l2) =
      assignOffsets k l1 ++ assignOffsets (k + 8 * l1.length) l2 := by
  induction l1 generalizing k with
  | nil => simp [assignOffsets]
  | cons x xs ih =>
    rw [List.cons_append]
    simp only [assignOffsets, List.length_cons]
    rw [ih (k + 8)]
    have : k + 8 + 8 * xs.length = k + 8 * (xs.length + 1) := by ring
    rw [this, List.cons_append]

theorem find_assignOffsets_mem (ds : List String) (k : Nat) (x : String)
    (hx : x ∈ ds) :
    find (assignOffsets k ds) x = .ok (k + 8 * (idxOfName x ds + 1)) := by
  induction ds generalizing k with
  | nil => cases hx
  | cons d ds ih =>
    by_cases hd : d = x
    · subst hd
      simp [assignOffsets, find, idxOfName]
    · have hx' : x ∈ ds := by
        cases List.mem_cons.mp hx with
        | inl h => exact absurd h.symm hd
        | inr h => exact h
      simp only [assignOffsets, find, if_neg hd, ih (k + 8) hx', idxOfName]
      congr 1
      ring

theorem find_assignOffsets_notMem (ds : List String) (k : Nat) (x : String)
    (hx : x ∉ ds) :
    find (assignOffsets k ds) x = .error .lookupError := by
  induction ds generalizing k with
  | nil => rfl
  | cons d ds ih =>
    have hd : d ≠ x := fun h => hx (h ▸ List.mem_cons_self d ds)
    have hx' : x ∉ ds := fun h => hx (List.mem_cons_of_mem d h)
    simp [assignOffsets, find, if_neg hd, ih (k + 8) hx']

theorem idxOfName_append_mem (x : String) (l1 l2 : List String) (hx : x ∈ l1) :
    idxOfName x (l1 ++ l2) = idxOfName x l1 := by
  induction l1 with
  | nil => cases hx
  | cons y ys ih =>
    by_cases hy : y = x
    · simp [idxOfName, if_pos hy]
    · have hx' : x ∈ ys := by
        cases List.mem_cons.mp hx with
        | inl h => exact absurd h.symm hy
        | inr h => exact h
      simp [idxOfName, if_neg hy, ih hx']

theorem idxOfName_append_notMem (x : String) (l1 l2 : List String) (hx : x ∉ l1) :
    idxOfName x (l1 ++ l2) = l1.length + idxOfName x l2 := by
  induction l1 with
  | nil => simp
  | cons y ys ih =>
    have hy : y ≠ x := fun h => hx (h ▸ List.mem_cons_self y ys)
    have hx' : x ∉ ys := fun h => hx (List.mem_cons_of_mem y h)
    simp [idxOfName, if_neg hy, ih hx']
    ring

theorem stateOf_chain (ds : List String) :
    (stateOf ds).chain = assignOffsets 0 ds := rfl

theorem stateOf_nil : stateOf [] = freshLVar := rfl

theorem processNames_stateOf (ns : List String) : ∀ ds : List String,
    processNames ns (stateOf ds) =
      .ok (ns.map (fun x =>
             local_var_node x (8 * (idxOfName x (ds ++ firstSeenFrom ds ns) + 1))),
           stateOf (ds ++ firstSeenFrom ds ns)) := by
  induction ns with
  | nil =>
    intro ds
    simp [processNames, firstSeenFrom]
  | cons x xs ih =>
    intro ds
    by_cases hx : x ∈ ds
    · have hfind := find_assignOffsets_mem ds 0 x hx
      have hcreate : create_new_local_var_node (stateOf ds) x =
          .ok (local_var_node x (8 * (idxOfName x ds + 1)), stateOf ds) := by
        simp only [create_new_local_var_node, stateOf_chain, hfind]
        norm_num
      have hfs : firstSeenFrom ds (x :: xs) = firstSeenFrom ds xs := by
        rw [firstSeenFrom, if_pos hx]
      simp only [processNames, hcreate, ih ds, hfs, List.map_cons]
      rw [idxOfName_append_mem x ds _ hx]
    · have hfind := find_assignOffsets_notMem ds 0 x hx
      cases ds with
      | nil =>
        have hcreate : create_new_local_var_node (stateOf []) x =
            .ok (local_var_node x 8, stateOf [x]) := by
          simp only [create_new_local_var_node, stateOf_chain, hfind]
          rfl
        have hfs : firstSeenFrom [] (x :: xs) = x :: firstSeenFrom [x] xs := by
          rw [firstSeenFrom, if_neg hx]
          simp
        simp only [processNames, hcreate, ih [x], hfs, List.map_cons,
                   List.nil_append, List.singleton_append]
        simp [idxOfName]
      | cons d ds' =>
        have hlen : (assignOffsets 0 (d :: ds')).length = ds'.length + 1 :=
          assignOffsets_length 0 (d :: ds')
        have hcursor : (stateOf (d :: ds')).cursor = some ds'.length := by
          simp [stateOf]
        have hidx := List.getElem?_eq_getElem
          (show ds'.length < (d :: ds').length by simp)
        have hget : get_offset (stateOf (d :: ds')) = .ok (0 + 8 * (ds'.length + 1)) := by
          simp only [get_offset, hcursor, stateOf_chain, assignOffsets_getElem?, hidx,
                     Option.map_some']
        have htake : (assignOffsets 0 (d :: ds')).take (ds'.length + 1) =
            assignOffsets 0 (d :: ds') := by
          rw [← hlen, List.take_length]
        have hchain : assignOffsets 0 ((d :: ds') ++ [x]) =
            assignOffsets 0 (d :: ds') ++ [(x, 0 + 8 * (ds'.length + 1) + 8)] := by
          rw [assignOffsets_append]
          simp [assignOffsets]
        have hlen2 : (assignOffsets 0 ((d :: ds') ++ [x])).length = ds'.length + 2 := by
          rw [assignOffsets_length]
          simp
        have hidx2 := List.getElem?_eq_getElem
          (show ds'.length + 1 < (assignOffsets 0 ((d :: ds') ++ [x])).length by
            rw [hlen2]; omega)
        have hproceed : proceed_pointer
            ⟨assignOffsets 0 ((d :: ds') ++ [x]), some ds'.length⟩ =
            .ok ⟨assignOffsets 0 ((d :: ds') ++ [x]), some (ds'.length + 1)⟩ := by
          simp only [proceed_pointer, hidx2]
        have hcreate : create_new_local_var_node (stateOf (d :: ds')) x =
            .ok (local_var_node x (0 + 8 * (ds'.length + 1) + 8),
                 ⟨assignOffsets 0 ((d :: ds') ++ [x]), some (ds'.length + 1)⟩) := by
          simp only [create_new_local_var_node, stateOf_chain, hfind, hcursor, hget,
                     htake, ← hchain, hproceed]
        have hstate : (⟨assignOffsets 0 ((d :: ds') ++ [x]), some (ds'.length + 1)⟩ :
            LVarState) = stateOf ((d :: ds') ++ [x]) := by
          simp [stateOf]
        have hfs : firstSeenFrom (d :: ds') (x :: xs) =
            x :: firstSeenFrom ((d :: ds') ++ [x]) xs := by
          rw [firstSeenFrom, if_neg hx]
        rw [hfs, List.append_cons]
        have hidxval : idxOfName x
            (((d :: ds') ++ [x]) ++ firstSeenFrom ((d :: ds') ++ [x]) xs) =
            ds'.length + 1 := by
          rw [idxOfName_append_mem _ _ _ (by simp),
              idxOfName_append_notMem _ _ _ hx]
          simp [idxOfName]
        simp only [processNames, hcreate, hstate, ih ((d :: ds') ++ [x]),
                   List.map_cons, hidxval]
        norm_num
        congr 1

/-- Errors the parser raises: `ValueError` for a missing `;` and for an
unbalanced parenthesis (distinct messages), `TypeError` for a non-number in
primary position, `IndexError` for unparsed trailing tokens in `run`, an
uncaught table error, and exhaustion of the recursion fuel. -/
inductive ParseErr where
  | unterminatedStatement
  | unbalancedParen
  | notNumber
  | trailingTokens
  | table (e : TableErr)
  | outOfFuel
deriving DecidableEq, Repr

/-- Result of one grammar rule: the node built, the remaining tokens and the
updated local-variable table. -/
abbrev PResult := Node × List Token × LVarState

mutual

/-- `Parser.expression`: expression = assign. -/
def expression : Nat → List Token → LVarState → Except ParseErr PResult
  | 0, _, _ => .error .outOfFuel
  | f + 1, ts, s => assign f ts s

/-- `Parser.assign`: assign = equality ("=" assign)?  — the right-hand side
re-enters `assign` itself. -/
def assign : Nat → List Token → LVarState → Except ParseErr PResult
  | 0, _, _ => .error .outOfFuel
  | f + 1, ts, s =>
    match equality f ts s with
    | .error e => .error e
    | .ok (n, ts1, s1) =>
      match consume "=" ts1 with
      | (true, ts2) =>
        match assign f ts2 s1 with
        | .error e => .error e
        | .ok (m, ts3, s3) => .ok (bin_node "=" .ASSIGN n m, ts3, s3)
      | (false, _) => .ok (n, ts1, s1)

/-- `Parser.equality`: equality = relation ("==" relation | "!=" relation)*. -/
def equality : Nat → List Token → LVarState → Except ParseErr PResult
  | 0, _, _ => .error .outOfFuel
  | f + 1, ts, s =>
    match relation f ts s with
    | .error e => .error e
    | .ok (n, ts1, s1) => equality_fold f n ts1 s1

/-- The `while 1` loop body of `Parser.equality`. -/
def equality_fold : Nat → Node → List Token → LVarState → Except ParseErr PResult
  | 0, _, _, _ => .error .outOfFuel
  | f + 1, n, ts, s =>
    match consume "==" ts with
    | (true, ts1) =>
      match relation f ts1 s with
      | .error e => .error e
      | .ok (m, ts2, s2) => equality_fold f (bin_node "==" .EQUAL n m) ts2 s2
    | (false, _) =>
      match consume "!=" ts with
      | (true, ts1) =>
        match relation f ts1 s with
        | .error e => .error e
        | .ok (m, ts2, s2) => equality_fold f (bin_node "!=" .NOT_EQUAL n m) ts2 s2
      | (false, _) => .ok (n, ts, s)

/-- `Parser.relation`: relation = add ("<" add | "<=" add | ">" add | ">=" add)*. -/
def relation : Nat → List Token → LVarState → Except ParseErr PResult
  | 0, _, _ => .error .outOfFuel
  | f + 1, ts, s =>
    match add f ts s with
    | .error e => .error e
    | .ok (n, ts1, s1) => relation_fold f n ts1 s1

/-- The `while 1` loop body of `Parser.relation`, trying `>=`, `>`, `<=`, `<`
in the source's order. -/
def relation_fold : Nat → Node → List Token → LVarState → Except ParseErr PResult
  | 0, _, _, _ => .error .outOfFuel
  | f + 1, n, ts, s =>
    match consume ">=" ts with
    | (true, ts1) =>
      match add f ts1 s with
      | .error e => .error e
      | .ok (m, ts2, s2) => relation_fold f (bin_node ">=" .GREATER_EQUAL n m) ts2 s2
    | (false, _) =>
      match consume ">" ts with
      | (true, ts1) =>
        match add f ts1 s with
        | .error e => .error e
        | .ok (m, ts2, s2) => relation_fold f (bin_node ">" .GREATER n m) ts2 s2
      | (false, _) =>
        match consume "<=" ts with
        | (true, ts1) =>
          match add f ts1 s with
          | .error e => .error e
          | .ok (m, ts2, s2) => relation_fold f (bin_node "<=" .LOWER_EQUAL n m) ts2 s2
        | (false, _) =>
          match consume "<" ts with
          | (true, ts1) =>
            match add f ts1 s with
            | .error e => .error e
            | .ok (m, ts2, s2) => relation_fold f (bin_node "<" .LOWER n m) ts2 s2
          | (false, _) => .ok (n, ts, s)

/-- `Parser.add`: add = mul ("+" mul | "-" mul)*. -/
def add : Nat → List Token → LVarState → Except ParseErr PResult
  | 0, _, _ => .error .outOfFuel
  | f + 1, ts, s =>
    match mul f ts s with
    | .error e => .error e
    | .ok (n, ts1, s1) => add_fold f n ts1 s1

/-- The `while 1` loop body of `Parser.add`. -/
def add_fold : Nat → Node → List Token → LVarState → Except ParseErr PResult
  | 0, _, _, _ => .error .outOfFuel
  | f + 1, n, ts, s =>
    match consume "+" ts with
    | (true, ts1) =>
      match mul f ts1 s with
      | .error e => .error e
      | .ok (m, ts2, s2) => add_fold f (bin_node "+" .ADD n m) ts2 s2
    | (false, _) =>
      match consume "-" ts with
      | (true, ts1) =>
        match mul f ts1 s with
        | .error e => .error e
        | .ok (m, ts2, s2) => add_fold f (bin_node "-" .SUB n m) ts2 s2
      | (false, _) => .ok (n, ts, s)

/-- `Parser.mul`: mul = unary ("*" unary | "/" unary)*. -/
def mul : Nat → List Token → LVarState → Except ParseErr PResult
  | 0, _, _ => .error .outOfFuel
  | f + 1, ts, s =>
    match unary f ts s with
    | .error e => .error e
    | .ok (n, ts1, s1) => mul_fold f n ts1 s1

/-- The `while 1` loop body of `Parser.mul`. -/
def mul_fold : Nat → Node → List Token → LVarState → Except ParseErr PResult
  | 0, _, _, _ => .error .outOfFuel
  | f + 1, n, ts, s =>
    match consume "*" ts with
    | (true, ts1) =>
      match unary f ts1 s with
      | .error e => .error e
      | .ok (m, ts2, s2) => mul_fold f (bin_node "*" .MUL n m) ts2 s2
    | (false, _) =>
      match consume "/" ts with
      | (true, ts1) =>
        match unary f ts1 s with
        | .error e => .error e
        | .ok (m, ts2, s2) => mul_fold f (bin_node "/" .DIV n m) ts2 s2
      | (false, _) => .ok (n, ts, s)

/-- `Parser.unary`: unary = ("+" | "-")? primary, a leading minus desugaring
to `0 - primary`. -/
def unary : Nat → List Token → LVarState → Except ParseErr PResult
  | 0, _, _ => .error .outOfFuel
  | f + 1, ts, s =>
    match consume "+" ts with
    | (true, ts1) => primary f ts1 s
    | (false, _) =>
      match consume "-" ts with
      | (true, ts1) =>
        match primary f ts1 s with
        | .error e => .error e
        | .ok (m, ts2, s2) => .ok (zero_minus m, ts2, s2)
      | (false, _) => primary f ts s

/-- `Parser.primary`: primary = num | identifier | "(" expression ")"; the
source checks `(` first, then `chack_type(IDENTIFIER)`, then requires a
number token (`TypeError` otherwise). -/
def primary : Nat → List Token → LVarState → Except ParseErr PResult
  | 0, _, _ => .error .outOfFuel
  | f + 1, ts, s =>
    match consume "(" ts with
    | (true, ts1) =>
      match expression f ts1 s with
      | .error e => .error e
      | .ok (n, ts2, s2) =>
        match consume ")" ts2 with
        | (true, ts3) => .ok (n, ts3, s2)
        | (false, _) => .error .unbalancedParen
    | (false, _) =>
      match ts with
      | Token.identifier name :: ts1 =>
        match create_new_local_var_node s name with
        | .error e => .error (.table e)
        | .ok (node, s1) => .ok (node, ts1, s1)
      | Token.number v :: ts1 => .ok (number_node v, ts1, s)
      | _ => .error .notNumber

end

/-- `Parser.statement`: statement = expression ";"; a missing `;` raises the
unterminated-statement `ValueError`. -/
def statement (f : Nat) (ts : List Token) (s : LVarState) : Except ParseErr PResult :=
  match expression f ts s with
  | .error e => .error e
  | .ok (n, ts1, s1) =>
    match consume ";" ts1 with
    | (true, ts2) => .ok (n, ts2, s1)
    | (false, _) => .error .unterminatedStatement

/-- `Parser.program`: program = statement*, looping until the cursor reports
EOF. -/
def program : Nat → List Token → LVarState →
    Except ParseErr (List Node × List Token × LVarState)
  | 0, _, _ => .error .outOfFuel
  | f + 1, ts, s =>
    if chack_type .EOF ts then .ok ([], ts, s)
    else
      match statement f ts s with
      | .error e => .error e
      | .ok (n, ts1, s1) =>
        match program f ts1 s1 with
        | .error e => .error e
        | .ok (ns, ts2, s2) => .ok (n :: ns, ts2, s2)

/-- `Parser.run`: execute `program` on a fresh table, then require the cursor
to be at EOF (`IndexError` for unparsed trailing tokens). -/
def run (f : Nat) (ts : List Token) : Except ParseErr (List Node) :=
  match program f ts freshLVar with
  | .error e => .error e
  | .ok (ns, ts1, _) =>
    if chack_type .EOF ts1 then .ok ns else .error .trailingTokens

/-- Does a node kind denote a leaf of the AST (no children)? -/
def leafKind : NodeKind → Bool
  | .NUMBER => true
  | .LOCAL_VAR => true
  | _ => false

mutual

/-- The structural invariant of spec §3: leaf kinds carry no children, every
other kind carries both, recursively through the whole tree. -/
def goodNode : Node → Bool
  | .mk _ k _ l r =>
    (if leafKind k then l.isNone && r.isNone else l.isSome && r.isSome)
      && goodChild l && goodChild r

/-- `goodNode` lifted to an optional child. -/
def goodChild : Option Node → Bool
  | none => true
  | some n => goodNode n

end

theorem goodNode_bin (op : String) (k : NodeKind) (hk : leafKind k = false)
    (n m : Node) (hn : goodNode n = true) (hm : goodNode m = true) :
    goodNode (bin_node op k n m) = true := by
  simp [bin_node, create_new_node, goodNode, goodChild, hk, hn, hm]

theorem goodNode_number (v : Int) : goodNode (number_node v) = true := rfl

theorem goodNode_lvar (x : String) (off : Nat) :
    goodNode (local_var_node x off) = true := rfl

theorem goodNode_zero_minus (m : Node) (hm : goodNode m = true) :
    goodNode (zero_minus m) = true := by
  simp [zero_minus, create_new_node, number_node, goodNode, goodChild, leafKind, hm]

theorem consume_true {s : String} : ∀ {ts ts' : List Token},
    consume s ts = (true, ts') → ts = Token.reserved s :: ts' := by
  intro ts ts' h
  match ts with
  | [] => simp [consume] at h
  | Token.number v :: r => simp [consume] at h
  | Token.identifier x :: r => simp [consume] at h
  | Token.eof :: r => simp [consume] at h
  | Token.reserved q :: r =>
    by_cases hq : q = s
    · subst hq
      simp [consume] at h
      rw [h]
    · simp [consume, hq] at h

theorem create_lvar_shape {s : LVarState} {name : String} {node : Node}
    {s1 : LVarState}
    (h : create_new_local_var_node s name = .ok (node, s1)) :
    ∃ off, node = local_var_node name off := by
  unfold create_new_local_var_node at h
  split at h
  · simp only [Except.ok.injEq, Prod.mk.injEq] at h
    exact ⟨_, h.1.symm⟩
  · split at h
    · simp only [Except.ok.injEq, Prod.mk.injEq] at h
      exact ⟨8, h.1.symm⟩
    · split at h
      · exact Except.noConfusion h
      · split at h
        · exact Except.noConfusion h
        · simp only [Except.ok.injEq, Prod.mk.injEq] at h
          exact ⟨_, h.1.symm⟩

/-- Grammar levels of spec §4.3, highest first. -/
inductive Lvl where
  | expr
  | asgn
  | eqy
  | rel
  | addl
  | mull
  | unry
  | prim
deriving DecidableEq, Repr

/-- Declarative derivation relation for the precedence grammar of spec §4.3:
`Deriv lvl ts n ts'` means the tokens consumed between `ts` and `ts'` derive
the tree `n` at grammar level `lvl`.  The left-associative levels extend a
derivation of the same level on the left with an operand of the next tighter
level on the right; `asgn` re-enters itself on the right (right-associative);
`unry` desugars a leading minus to `0 - primary`; identifier offsets are
unconstrained here (they are fixed separately by the symbol-table theorems). -/
inductive Deriv : Lvl → List Token → Node → List Token → Prop where
  | exprA : Deriv .asgn ts n ts' → Deriv .expr ts n ts'
  | asgnBase : Deriv .eqy ts n ts' → Deriv .asgn ts n ts'
  | asgnStep : Deriv .eqy ts n (Token.reserved "=" :: ts2) → Deriv .asgn ts2 m ts' →
      Deriv .asgn ts (bin_node "=" .ASSIGN n m) ts'
  | eqyBase : Deriv .rel ts n ts' → Deriv .eqy ts n ts'
  | eqyEq : Deriv .eqy ts n (Token.reserved "==" :: ts2) → Deriv .rel ts2 m ts' →
      Deriv .eqy ts (bin_node "==" .EQUAL n m) ts'
  | eqyNe : Deriv .eqy ts n (Token.reserved "!=" :: ts2) → Deriv .rel ts2 m ts' →
      Deriv .eqy ts (bin_node "!=" .NOT_EQUAL n m) ts'
  | relBase : Deriv .addl ts n ts' → Deriv .rel ts n ts'
  | relGe : Deriv .rel ts n (Token.reserved ">=" :: ts2) → Deriv .addl ts2 m ts' →
      Deriv .rel ts (bin_node ">=" .GREATER_EQUAL n m) ts'
  | relGt : Deriv .rel ts n (Token.reserved ">" :: ts2) → Deriv .addl ts2 m ts' →
      Deriv .rel ts (bin_node ">" .GREATER n m) ts'
  | relLe : Deriv .rel ts n (Token.reserved "<=" :: ts2) → Deriv .addl ts2 m ts' →
      Deriv .rel ts (bin_node "<=" .LOWER_EQUAL n m) ts'
  | relLt : Deriv .rel ts n (Token.reserved "<" :: ts2) → Deriv .addl ts2 m ts' →
      Deriv .rel ts (bin_node "<" .LOWER n m) ts'
  | addBase : Deriv .mull ts n ts' → Deriv .addl ts n ts'
  | addAdd : Deriv .addl ts n (Token.reserved "+" :: ts2) → Deriv .mull ts2 m ts' →
      Deriv .addl ts (bin_node "+" .ADD n m) ts'
  | addSub : Deriv .addl ts n (Token.reserved "-" :: ts2) → Deriv .mull ts2 m ts' →
      Deriv .addl ts (bin_node "-" .SUB n m) ts'
  | mulBase : Deriv .unry ts n ts' → Deriv .mull ts n ts'
  | mulMul : Deriv .mull ts n (Token.reserved "*" :: ts2) → Deriv .unry ts2 m ts' →
      Deriv .mull ts (bin_node "*" .MUL n m) ts'
  | mulDiv : Deriv .mull ts n (Token.reserved "/" :: ts2) → Deriv .unry ts2 m ts' →
      Deriv .mull ts (bin_node "/" .DIV n m) ts'
  | unryPos : Deriv .prim ts n ts' → Deriv .unry (Token.reserved "+" :: ts) n ts'
  | unryNeg : Deriv .prim ts n ts' → Deriv .unry (Token.reserved "-" :: ts) (zero_minus n) ts'
  | unryNone : Deriv .prim ts n ts' → Deriv .unry ts n ts'
  | primNum : Deriv .prim (Token.number v :: ts) (number_node v) ts
  | primIdent : Deriv .prim (Token.identifier x :: ts) (local_var_node x off) ts
  | primParen : Deriv .expr ts n (Token.reserved ")" :: ts') →
      Deriv .prim (Token.reserved "(" :: ts) n ts'

/-- Derivation for statement = expression ";". -/
inductive DStmt : List Token → Node → List Token → Prop where
  | mk : Deriv .expr ts n (Token.reserved ";" :: ts') → DStmt ts n ts'

/-- Derivation for program = statement*, repeating until the cursor reports
EOF. -/
inductive DProg : List Token → List Node → List Token → Prop where
  | last : chack_type .EOF ts = true → DProg ts [] ts
  | step : chack_type .EOF ts = false → DStmt ts n ts2 → DProg ts2 ns ts' →
      DProg ts (n :: ns) ts'

/-- Soundness and structural goodness of every rule function at fuel `f`:
each successful parse yields a tree derivable at its grammar level that
satisfies the child-shape invariant; each loop extends any derivation of the
accumulated node and preserves goodness. -/
def SoundAt (f : Nat) : Prop :=
  (∀ ts s n ts' s', expression f ts s = .ok (n, ts', s') →
     Deriv .expr ts n ts' ∧ goodNode n = true) ∧
  (∀ ts s n ts' s', assign f ts s = .ok (n, ts', s') →
     Deriv .asgn ts n ts' ∧ goodNode n = true) ∧
  (∀ ts s n ts' s', equality f ts s = .ok (n, ts', s') →
     Deriv .eqy ts n ts' ∧ goodNode n = true) ∧
  (∀ n0 ts s n ts' s', equality_fold f n0 ts s = .ok (n, ts', s') →
     (∀ ts0, Deriv .eqy ts0 n0 ts → Deriv .eqy ts0 n ts') ∧
       (goodNode n0 = true → goodNode n = true)) ∧
  (∀ ts s n ts' s', relation f ts s = .ok (n, ts', s') →
     Deriv .rel ts n ts' ∧ goodNode n = true) ∧
  (∀ n0 ts s n ts' s', relation_fold f n0 ts s = .ok (n, ts', s') →
     (∀ ts0, Deriv .rel ts0 n0 ts → Deriv .rel ts0 n ts') ∧
       (goodNode n0 = true → goodNode n = true)) ∧
  (∀ ts s n ts' s', add f ts s = .ok (n, ts', s') →
     Deriv .addl ts n ts' ∧ goodNode n = true) ∧
  (∀ n0 ts s n ts' s', add_fold f n0 ts s = .ok (n, ts', s') →
     (∀ ts0, Deriv .addl ts0 n0 ts → Deriv .addl ts0 n ts') ∧
       (goodNode n0 = true → goodNode n = true)) ∧
  (∀ ts s n ts' s', mul f ts s = .ok (n, ts', s') →
     Deriv .mull ts n ts' ∧ goodNode n = true) ∧
  (∀ n0 ts s n ts' s', mul_fold f n0 ts s = .ok (n, ts', s') →
     (∀ ts0, Deriv .mull ts0 n0 ts → Deriv .mull ts0 n ts') ∧
       (goodNode n0 = true → goodNode n = true)) ∧
  (∀ ts s n ts' s', unary f ts s = .ok (n, ts', s') →
     Deriv .unry ts n ts' ∧ goodNode n = true) ∧
  (∀ ts s n ts' s', primary f ts s = .ok (n, ts', s') →
     Deriv .prim ts n ts' ∧ goodNode n = true)

theorem soundAt (f : Nat) : SoundAt f := by
  induction f with
  | zero =>
    exact ⟨fun ts s n ts' s' h => Except.noConfusion h,
           fun ts s n ts' s' h => Except.noConfusion h,
           fun ts s n ts' s' h => Except.noConfusion h,
           fun n0 ts s n ts' s' h => Except.noConfusion h,
           fun ts s n ts' s' h => Except.noConfusion h,
           fun n0 ts s n ts' s' h => Except.noConfusion h,
           fun ts s n ts' s' h => Except.noConfusion h,
           fun n0 ts s n ts' s' h => Except.noConfusion h,
           fun ts s n ts' s' h => Except.noConfusion h,
           fun n0 ts s n ts' s' h => Except.noConfusion h,
           fun ts s n ts' s' h => Except.noConfusion h,
           fun ts s n ts' s' h => Except.noConfusion h⟩
  | succ f ih =>
    obtain ⟨ihExpr, ihAsgn, ihEqy, ihEqyF, ihRel, ihRelF, ihAdd, ihAddF,
            ihMul, ihMulF, ihUnry, ihPrim⟩ := ih
    refine ⟨?_, ?_, ?_, ?_, ?_, ?_, ?_, ?_, ?_, ?_, ?_, ?_⟩
    · -- expression
      intro ts s n ts' s' h
      simp only [expression] at h
      obtain ⟨d, g⟩ := ihAsgn _ _ _ _ _ h
      exact ⟨Deriv.exprA d, g⟩
    · -- assign
      intro ts s n ts' s' h
      simp only [assign] at h
      split at h
      · exact Except.noConfusion h
      · rename_i n1 ts1 s1 he
        split at h
        · rename_i ts2 hc
          split at h
          · exact Except.noConfusion h
          · rename_i m ts3 s3 ha
            simp only [Except.ok.injEq, Prod.mk.injEq] at h
            obtain ⟨hn, hts, hs⟩ := h
            subst hn hts hs
            obtain ⟨d1, g1⟩ := ihEqy _ _ _ _ _ he
            obtain ⟨d2, g2⟩ := ihAsgn _ _ _ _ _ ha
            exact ⟨Deriv.asgnStep (consume_true hc ▸ d1) d2,
                   goodNode_bin _ _ (by rfl) _ _ g1 g2⟩
        · rename_i ts2 hc
          simp only [Except.ok.injEq, Prod.mk.injEq] at h
          obtain ⟨hn, hts, hs⟩ := h
          subst hn hts hs
          obtain ⟨d1, g1⟩ := ihEqy _ _ _ _ _ he
          exact ⟨Deriv.asgnBase d1, g1⟩
    · -- equality
      intro ts s n ts' s' h
      simp only [equality] at h
      split at h
      · exact Except.noConfusion h
      · rename_i n1 ts1 s1 he
        obtain ⟨d1, g1⟩ := ihRel _ _ _ _ _ he
        obtain ⟨dstep, gstep⟩ := ihEqyF _ _ _ _ _ _ h
        exact ⟨dstep ts (Deriv.eqyBase d1), gstep g1⟩
    · -- equality_fold
      intro n0 ts s n ts' s' h
      simp only [equality_fold] at h
      split at h
      · rename_i ts1 hc
        split at h
        · exact Except.noConfusion h
        · rename_i m ts2 s2 hr
          obtain ⟨dm, gm⟩ := ihRel _ _ _ _ _ hr
          obtain ⟨dstep, gstep⟩ := ihEqyF _ _ _ _ _ _ h
          exact ⟨fun ts0 d0 => dstep ts0 (Deriv.eqyEq (consume_true hc ▸ d0) dm),
                 fun g0 => gstep (goodNode_bin _ _ (by rfl) _ _ g0 gm)⟩
      · rename_i tsx hcx
        split at h
        · rename_i ts1 hc
          split at h
          · exact Except.noConfusion h
          · rename_i m ts2 s2 hr
            obtain ⟨dm, gm⟩ := ihRel _ _ _ _ _ hr
            obtain ⟨dstep, gstep⟩ := ihEqyF _ _ _ _ _ _ h
            exact ⟨fun ts0 d0 => dstep ts0 (Deriv.eqyNe (consume_true hc ▸ d0) dm),
                   fun g0 => gstep (goodNode_bin _ _ (by rfl) _ _ g0 gm)⟩
        · rename_i ts1 hc1
          simp only [Except.ok.injEq, Prod.mk.injEq] at h
          obtain ⟨hn, hts, hs⟩ := h
          subst hn hts hs
          exact ⟨fun ts0 d0 => d0, fun g0 => g0⟩
    · -- relation
      intro ts s n ts' s' h
      simp only [relation] at h
      split at h
      · exact Except.noConfusion h
      · rename_i n1 ts1 s1 he
        obtain ⟨d1, g1⟩ := ihAdd _ _ _ _ _ he
        obtain ⟨dstep, gstep⟩ := ihRelF _ _ _ _ _ _ h
        exact ⟨dstep ts (Deriv.relBase d1), gstep g1⟩
    · -- relation_fold
      intro n0 ts s n ts' s' h
      simp only [relation_fold] at h
      split at h
      · rename_i ts1 hc
        split at h
        · exact Except.noConfusion h
        · rename_i m ts2 s2 hr
          obtain ⟨dm, gm⟩ := ihAdd _ _ _ _ _ hr
          obtain ⟨dstep, gstep⟩ := ihRelF _ _ _ _ _ _ h
          exact ⟨fun ts0 d0 => dstep ts0 (Deriv.relGe (consume_true hc ▸ d0) dm),
                 fun g0 => gstep (goodNode_bin _ _ (by rfl) _ _ g0 gm)⟩
      · rename_i tsx hcx
        split at h
        · rename_i ts1 hc
          split at h
          · exact Except.noConfusion h
          · rename_i m ts2 s2 hr
            obtain ⟨dm, gm⟩ := ihAdd _ _ _ _ _ hr
            obtain ⟨dstep, gstep⟩ := ihRelF _ _ _ _ _ _ h
            exact ⟨fun ts0 d0 => dstep ts0 (Deriv.relGt (consume_true hc ▸ d0) dm),
                   fun g0 => gstep (goodNode_bin _ _ (by rfl) _ _ g0 gm)⟩
        · rename_i tsy hcy
          split at h
          · rename_i ts1 hc
            split at h
            · exact Except.noConfusion h
            · rename_i m ts2 s2 hr
              obtain ⟨dm, gm⟩ := ihAdd _ _ _ _ _ hr
              obtain ⟨dstep, gstep⟩ := ihRelF _ _ _ _ _ _ h
              exact ⟨fun ts0 d0 => dstep ts0 (Deriv.relLe (consume_true hc ▸ d0) dm),
                     fun g0 => gstep (goodNode_bin _ _ (by rfl) _ _ g0 gm)⟩
          · rename_i tsz hcz
            split at h
            · rename_i ts1 hc
              split at h
              · exact Except.noConfusion h
              · rename_i m ts2 s2 hr
                obtain ⟨dm, gm⟩ := ihAdd _ _ _ _ _ hr
                obtain ⟨dstep, gstep⟩ := ihRelF _ _ _ _ _ _ h
                exact ⟨fun ts0 d0 => dstep ts0 (Deriv.relLt (consume_true hc ▸ d0) dm),
                       fun g0 => gstep (goodNode_bin _ _ (by rfl) _ _ g0 gm)⟩
            · rename_i ts1 hc1
              simp only [Except.ok.injEq, Prod.mk.injEq] at h
              obtain ⟨hn, hts, hs⟩ := h
              subst hn hts hs
              exact ⟨fun ts0 d0 => d0, fun g0 => g0⟩
    · -- add
      intro ts s n ts' s' h
      simp only [add] at h
      split at h
      · exact Except.noConfusion h
      · rename_i n1 ts1 s1 he
        obtain ⟨d1, g1⟩ := ihMul _ _ _ _ _ he
        obtain ⟨dstep, gstep⟩ := ihAddF _ _ _ _ _ _ h
        exact ⟨dstep ts (Deriv.addBase d1), gstep g1⟩
    · -- add_fold
      intro n0 ts s n ts' s' h
      simp only [add_fold] at h
      split at h
      · rename_i ts1 hc
        split at h
        · exact Except.noConfusion h
        · rename_i m ts2 s2 hr
          obtain ⟨dm, gm⟩ := ihMul _ _ _ _ _ hr
          obtain ⟨dstep, gstep⟩ := ihAddF _ _ _ _ _ _ h
          exact ⟨fun ts0 d0 => dstep ts0 (Deriv.addAdd (consume_true hc ▸ d0) dm),
                 fun g0 => gstep (goodNode_bin _ _ (by rfl) _ _ g0 gm)⟩
      · rename_i tsx hcx
        split at h
        · rename_i ts1 hc
          split at h
          · exact Except.noConfusion h
          · rename_i m ts2 s2 hr
            obtain ⟨dm, gm⟩ := ihMul _ _ _ _ _ hr
            obtain ⟨dstep, gstep⟩ := ihAddF _ _ _ _ _ _ h
            exact ⟨fun ts0 d0 => dstep ts0 (Deriv.addSub (consume_true hc ▸ d0) dm),
                   fun g0 => gstep (goodNode_bin _ _ (by rfl) _ _ g0 gm)⟩
        · rename_i ts1 hc1
          simp only [Except.ok.injEq, Prod.mk.injEq] at h
          obtain ⟨hn, hts, hs⟩ := h
          subst hn hts hs
          exact ⟨fun ts0 d0 => d0, fun g0 => g0⟩
    · -- mul
      intro ts s n ts' s' h
      simp only [mul] at h
      split at h
      · exact Except.noConfusion h
      · rename_i n1 ts1 s1 he
        obtain ⟨d1, g1⟩ := ihUnry _ _ _ _ _ he
        obtain ⟨dstep, gstep⟩ := ihMulF _ _ _ _ _ _ h
        exact ⟨dstep ts (Deriv.mulBase d1), gstep g1⟩
    · -- mul_fold
      intro n0 ts s n ts' s' h
      simp only [mul_fold] at h
      split at h
      · rename_i ts1 hc
        split at h
        · exact Except.noConfusion h
        · rename_i m ts2 s2 hr
          obtain ⟨dm, gm⟩ := ihUnry _ _ _ _ _ hr
          obtain ⟨dstep, gstep⟩ := ihMulF _ _ _ _ _ _ h
          exact ⟨fun ts0 d0 => dstep ts0 (Deriv.mulMul (consume_true hc ▸ d0) dm),
                 fun g0 => gstep (goodNode_bin _ _ (by rfl) _ _ g0 gm)⟩
      · rename_i tsx hcx
        split at h
        · rename_i ts1 hc
          split at h
          · exact Except.noConfusion h
          · rename_i m ts2 s2 hr
            obtain ⟨dm, gm⟩ := ihUnry _ _ _ _ _ hr
            obtain ⟨dstep, gstep⟩ := ihMulF _ _ _ _ _ _ h
            exact ⟨fun ts0 d0 => dstep ts0 (Deriv.mulDiv (consume_true hc ▸ d0) dm),
                   fun g0 => gstep (goodNode_bin _ _ (by rfl) _ _ g0 gm)⟩
        · rename_i ts1 hc1
          simp only [Except.ok.injEq, Prod.mk.injEq] at h
          obtain ⟨hn, hts, hs⟩ := h
          subst hn hts hs
          exact ⟨fun ts0 d0 => d0, fun g0 => g0⟩
    · -- unary
      intro ts s n ts' s' h
      simp only [unary] at h
      split at h
      · rename_i ts1 hc
        obtain ⟨d, g⟩ := ihPrim _ _ _ _ _ h
        rw [consume_true hc]
        exact ⟨Deriv.unryPos d, g⟩
      · rename_i tsx hcx
        split at h
        · rename_i ts1 hc
          split at h
          · exact Except.noConfusion h
          · rename_i m ts2 s2 hp
            simp only [Except.ok.injEq, Prod.mk.injEq] at h
            obtain ⟨hn, hts, hs⟩ := h
            subst hn hts hs
            obtain ⟨dm, gm⟩ := ihPrim _ _ _ _ _ hp
            rw [consume_true hc]
            exact ⟨Deriv.unryNeg dm, goodNode_zero_minus _ gm⟩
        · rename_i ts1 hc1
          obtain ⟨d, g⟩ := ihPrim _ _ _ _ _ h
          exact ⟨Deriv.unryNone d, g⟩
    · -- primary
      intro ts s n ts' s' h
      simp only [primary] at h
      split at h
      · rename_i ts1 hc
        split at h
        · exact Except.noConfusion h
        · rename_i n1 ts2 s2 hex
          split at h
          · rename_i ts3 hc2
            simp only [Except.ok.injEq, Prod.mk.injEq] at h
            obtain ⟨hn, hts, hs⟩ := h
            subst hn hts hs
            obtain ⟨d1, g1⟩ := ihExpr _ _ _ _ _ hex
            rw [consume_true hc]
            exact ⟨Deriv.primParen (consume_true hc2 ▸ d1), g1⟩
          · exact Except.noConfusion h
      · rename_i tsx hcx
        split at h
        · rename_i name ts1
          split at h
          · exact Except.noConfusion h
          · rename_i node s1 hcr
            simp only [Except.ok.injEq, Prod.mk.injEq] at h
            obtain ⟨hn, hts, hs⟩ := h
            subst hn hts hs
            obtain ⟨off, hoff⟩ := create_lvar_shape hcr
            subst hoff
            exact ⟨Deriv.primIdent, goodNode_lvar _ _⟩
        · rename_i v ts1
          simp only [Except.ok.injEq, Prod.mk.injEq] at h
          obtain ⟨hn, hts, hs⟩ := h
          subst hn hts hs
          exact ⟨Deriv.primNum, goodNode_number _⟩
        · exact Except.noConfusion h
  

theorem statement_sound {f : Nat} {ts : List Token} {s : LVarState}
    {n : Node} {ts' : List Token} {s' : LVarState}
    (h : statement f ts s = .ok (n, ts', s')) :
    DStmt ts n ts' ∧ goodNode n = true := by
  unfold statement at h
  split at h
  · exact Except.noConfusion h
  · rename_i n1 ts1 s1 he
    split at h
    · rename_i ts2 hc
      simp only [Except.ok.injEq, Prod.mk.injEq] at h
      obtain ⟨hn, hts, hs⟩ := h
      subst hn hts hs
      obtain ⟨d, g⟩ := (soundAt f).1 _ _ _ _ _ he
      exact ⟨DStmt.mk (consume_true hc ▸ d), g⟩
    · exact Except.noConfusion h

theorem program_sound : ∀ (f : Nat) {ts : List Token} {s : LVarState}
    {ns : List Node} {ts' : List Token} {s' : LVarState},
    program f ts s = .ok (ns, ts', s') →
    DProg ts ns ts' ∧ ns.all goodNode = true := by
  intro f
  induction f with
  | zero => intro ts s ns ts' s' h; exact Except.noConfusion h
  | succ f ih =>
    intro ts s ns ts' s' h
    simp only [program] at h
    split at h
    · rename_i heof
      simp only [Except.ok.injEq, Prod.mk.injEq] at h
      obtain ⟨hn, hts, hs⟩ := h
      subst hn hts hs
      exact ⟨DProg.last heof, rfl⟩
    · rename_i heof
      split at h
      · exact Except.noConfusion h
      · rename_i n1 ts1 s1 hst
        split at h
        · exact Except.noConfusion h
        · rename_i ns1 ts2 s2 hpr
          simp only [Except.ok.injEq, Prod.mk.injEq] at h
          obtain ⟨hn, hts, hs⟩ := h
          subst hn hts hs
          obtain ⟨d1, g1⟩ := statement_sound hst
          obtain ⟨d2, g2⟩ := ih hpr
          refine ⟨DProg.step ?_ d1 d2, ?_⟩
          · simpa using heof
          · simp [List.all_cons, g1, g2]

theorem program_eof : ∀ (f : Nat) {ts : List Token} {s : LVarState}
    {ns : List Node} {ts' : List Token} {s' : LVarState},
    program f ts s = .ok (ns, ts', s') → chack_type .EOF ts' = true := by
  intro f
  induction f with
  | zero => intro ts s ns ts' s' h; exact Except.noConfusion h
  | succ f ih =>
    intro ts s ns ts' s' h
    simp only [program] at h
    split at h
    · rename_i heof
      simp only [Except.ok.injEq, Prod.mk.injEq] at h
      obtain ⟨hn, hts, hs⟩ := h
      subst hts
      exact heof
    · rename_i heof
      split at h
      · exact Except.noConfusion h
      · rename_i n1 ts1 s1 hst
        split at h
        · exact Except.noConfusion h
        · rename_i ns1 ts2 s2 hpr
          simp only [Except.ok.injEq, Prod.mk.injEq] at h
          obtain ⟨hn, hts, hs⟩ := h
          subst hts
          exact ih hpr

theorem program_nil_iff : ∀ (f : Nat) {ts : List Token} {s : LVarState}
    {ns : List Node} {ts' : List Token} {s' : LVarState},
    program f ts s = .ok (ns, ts', s') →
    (ns = [] ↔ chack_type .EOF ts = true) := by
  intro f
  cases f with
  | zero => intro ts s ns ts' s' h; exact Except.noConfusion h
  | succ f =>
    intro ts s ns ts' s' h
    simp only [program] at h
    split at h
    · rename_i heof
      simp only [Except.ok.injEq, Prod.mk.injEq] at h
      obtain ⟨hn, hts, hs⟩ := h
      subst hn
      simp [heof]
    · rename_i heof
      split at h
      · exact Except.noConfusion h
      · rename_i n1 ts1 s1 hst
        split at h
        · exact Except.noConfusion h
        · rename_i ns1 ts2 s2 hpr
          simp only [Except.ok.injEq, Prod.mk.injEq] at h
          obtain ⟨hn, hts, hs⟩ := h
          subst hn
          simp only [Bool.not_eq_true] at heof
          simp [heof]

/-- The tree left-associative folding produces: the second node is reachable
from the first by repeatedly wrapping it as the LEFT child of a fresh binary
node. -/
inductive LeftGrown (base : Node) : Node → Prop where
  | refl : LeftGrown base base
  | grow : ∀ (op : String) (k : NodeKind) (n m : Node),
      LeftGrown base n → LeftGrown base (bin_node op k n m)

theorem equality_fold_leftGrown : ∀ (f : Nat) {n0 : Node} {ts : List Token}
    {s : LVarState} {n : Node} {ts' : List Token} {s' : LVarState} {base : Node},
    equality_fold f n0 ts s = .ok (n, ts', s') →
    LeftGrown base n0 → LeftGrown base n := by
  intro f
  induction f with
  | zero => intro n0 ts s n ts' s' base h hb; exact Except.noConfusion h
  | succ f ih =>
    intro n0 ts s n ts' s' base h hb
    simp only [equality_fold] at h
    split at h
    · rename_i ts1 hc
      split at h
      · exact Except.noConfusion h
      · exact ih h (LeftGrown.grow _ _ _ _ hb)
    · rename_i tsx hcx
      split at h
      · rename_i ts1 hc
        split at h
        · exact Except.noConfusion h
        · exact ih h (LeftGrown.grow _ _ _ _ hb)
      · rename_i ts1 hc1
        simp only [Except.ok.injEq, Prod.mk.injEq] at h
        obtain ⟨hn, hts, hs⟩ := h
        subst hn
        exact hb

theorem relation_fold_leftGrown : ∀ (f : Nat) {n0 : Node} {ts : List Token}
    {s : LVarState} {n : Node} {ts' : List Token} {s' : LVarState} {base : Node},
    relation_fold f n0 ts s = .ok (n, ts', s') →
    LeftGrown base n0 → LeftGrown base n := by
  intro f
  induction f with
  | zero => intro n0 ts s n ts' s' base h hb; exact Except.noConfusion h
  | succ f ih =>
    intro n0 ts s n ts' s' base h hb
    simp only [relation_fold] at h
    split at h
    · rename_i ts1 hc
      split at h
      · exact Except.noConfusion h
      · exact ih h (LeftGrown.grow _ _ _ _ hb)
    · rename_i tsx hcx
      split at h
      · rename_i ts1 hc
        split at h
        · exact Except.noConfusion h
        · exact ih h (LeftGrown.grow _ _ _ _ hb)
      · rename_i tsy hcy
        split at h
        · rename_i ts1 hc
          split at h
          · exact Except.noConfusion h
          · exact ih h (LeftGrown.grow _ _ _ _ hb)
        · rename_i tsz hcz
          split at h
          · rename_i ts1 hc
            split at h
            · exact Except.noConfusion h
            · exact ih h (LeftGrown.grow _ _ _ _ hb)
          · rename_i ts1 hc1
            simp only [Except.ok.injEq, Prod.mk.injEq] at h
            obtain ⟨hn, hts, hs⟩ := h
            subst hn
            exact hb

theorem add_fold_leftGrown : ∀ (f : Nat) {n0 : Node} {ts : List Token}
    {s : LVarState} {n : Node} {ts' : List Token} {s' : LVarState} {base : Node},
    add_fold f n0 ts s = .ok (n, ts', s') →
    LeftGrown base n0 → LeftGrown base n := by
  intro f
  induction f with
  | zero => intro n0 ts s n ts' s' base h hb; exact Except.noConfusion h
  | succ f ih =>
    intro n0 ts s n ts' s' base h hb
    simp only [add_fold] at h
    split at h
    · rename_i ts1 hc
      split at h
      · exact Except.noConfusion h
      · exact ih h (LeftGrown.grow _ _ _ _ hb)
    · rename_i tsx hcx
      split at h
      · rename_i ts1 hc
        split at h
        · exact Except.noConfusion h
        · exact ih h (LeftGrown.grow _ _ _ _ hb)
      · rename_i ts1 hc1
        simp only [Except.ok.injEq, Prod.mk.injEq] at h
        obtain ⟨hn, hts, hs⟩ := h
        subst hn
        exact hb

theorem mul_fold_leftGrown : ∀ (f : Nat) {n0 : Node} {ts : List Token}
    {s : LVarState} {n : Node} {ts' : List Token} {s' : LVarState} {base : Node},
    mul_fold f n0 ts s = .ok (n, ts', s') →
    LeftGrown base n0 → LeftGrown base n := by
  intro f
  induction f with
  | zero => intro n0 ts s n ts' s' base h hb; exact Except.noConfusion h
  | succ f ih =>
    intro n0 ts s n ts' s' base h hb
    simp only [mul_fold] at h
    split at h
    · rename_i ts1 hc
      split at h
      · exact Except.noConfusion h
      · exact ih h (LeftGrown.grow _ _ _ _ hb)
    · rename_i tsx hcx
      split at h
      · rename_i ts1 hc
        split at h
        · exact Except.noConfusion h
        · exact ih h (LeftGrown.grow _ _ _ _ hb)
      · rename_i ts1 hc1
        simp only [Except.ok.injEq, Prod.mk.injEq] at h
        obtain ⟨hn, hts, hs⟩ := h
        subst hn
        exact hb

deriving instance DecidableEq for Except

/-- C1: running the lookup-or-allocate operation over any sequence of
identifier occurrences from a fresh table always succeeds; every occurrence
of a name yields a LOCAL_VAR node whose offset is `8 * (k + 1)` where `k` is
the name's position in first-seen order (so the first distinct name gets 8
and later occurrences repeat the previously assigned offset); the final
chain maps the k-th distinct name to offset `k * 8` (indexing conjunct); and
the parser-level examples: `a + a ;` gives two LocalVar nodes with offset 8,
`a + b ;` gives offsets 8 and 16. -/
theorem c1_symbol_table_offsets :
    (∀ ns : List String,
       processNames ns freshLVar =
         .ok (ns.map (fun x =>
                local_var_node x (8 * (idxOfName x (firstSeenFrom [] ns) + 1))),
              stateOf (firstSeenFrom [] ns))) ∧
    (∀ (ds : List String) (k i : Nat),
       (assignOffsets k ds)[i]? = ds[i]?.map (fun x => (x, k + 8 * (i + 1)))) ∧
    run 30 [Token.identifier "a", Token.reserved "+", Token.identifier "a",
            Token.reserved ";", Token.eof] =
      .ok [bin_node "+" .ADD (local_var_node "a" 8) (local_var_node "a" 8)] ∧
    run 30 [Token.identifier "a", Token.reserved "+", Token.identifier "b",
            Token.reserved ";", Token.eof] =
      .ok [bin_node "+" .ADD (local_var_node "a" 8) (local_var_node "b" 16)] := by
  refine ⟨?_, assignOffsets_getElem?, by decide, by decide⟩
  intro ns
  have h := processNames_stateOf ns []
  simpa [stateOf_nil] using h

/-- Soundness half of the grammar correspondence: whenever `run` succeeds,
the returned trees are derivable by the precedence grammar of spec §4.3, and
the sequence is non-empty iff the stream does not begin at EOF. -/
theorem run_sound_aux : ∀ (f : Nat) (ts : List Token) (ns : List Node),
    run f ts = .ok ns →
    (∃ ts', DProg ts ns ts') ∧ (ns = [] ↔ chack_type .EOF ts = true) := by
  intro f ts ns h
  unfold run at h
  split at h
  · exact Except.noConfusion h
  · rename_i ns1 ts1 s1 hpr
    split at h
    · simp only [Except.ok.injEq] at h
      subst h
      exact ⟨⟨ts1, (program_sound f hpr).1⟩, program_nil_iff f hpr⟩
    · exact Except.noConfusion h

/-- C2 counterexample: the empty program (a bare EOF stream) is accepted by
the grammar, yet `run` returns the EMPTY sequence of statement trees — the
claim's "non-empty" fails. -/
theorem c2_counterexample_empty_program :
    run 2 [Token.eof] = .ok ([] : List Node) ∧ DProg [Token.eof] [] [Token.eof] :=
  ⟨by decide, DProg.last (by decide)⟩

/-- C3: assignment parses right-associatively — `a = b = c ;` yields an
Assign node whose right child is itself the Assign node for `b = c` and
whose left child is the LocalVar for `a`. -/
theorem c3_assign_right_assoc :
    run 30 [Token.identifier "a", Token.reserved "=", Token.identifier "b",
            Token.reserved "=", Token.identifier "c", Token.reserved ";", Token.eof] =
      .ok [bin_node "=" .ASSIGN (local_var_node "a" 8)
            (bin_node "=" .ASSIGN (local_var_node "b" 16) (local_var_node "c" 24))] := by
  decide

/-- C4: the equality, relational, additive and multiplicative loops fold
left-associatively — whatever node each loop returns is reachable from the
accumulated node by wrapping it repeatedly as the LEFT child of new binary
nodes — and concretely `a - b - c ;` parses as `(a - b) - c`, never
`a - (b - c)`. -/
theorem c4_left_assoc :
    (∀ (f : Nat) (n0 : Node) (ts : List Token) (s : LVarState) (n : Node)
       (ts' : List Token) (s' : LVarState),
       equality_fold f n0 ts s = .ok (n, ts', s') → LeftGrown n0 n) ∧
    (∀ (f : Nat) (n0 : Node) (ts : List Token) (s : LVarState) (n : Node)
       (ts' : List Token) (s' : LVarState),
       relation_fold f n0 ts s = .ok (n, ts', s') → LeftGrown n0 n) ∧
    (∀ (f : Nat) (n0 : Node) (ts : List Token) (s : LVarState) (n : Node)
       (ts' : List Token) (s' : LVarState),
       add_fold f n0 ts s = .ok (n, ts', s') → LeftGrown n0 n) ∧
    (∀ (f : Nat) (n0 : Node) (ts : List Token) (s : LVarState) (n : Node)
       (ts' : List Token) (s' : LVarState),
       mul_fold f n0 ts s = .ok (n, ts', s') → LeftGrown n0 n) ∧
    run 30 [Token.identifier "a", Token.reserved "-", Token.identifier "b",
            Token.reserved "-", Token.identifier "c", Token.reserved ";", Token.eof] =
      .ok [bin_node "-" .SUB
            (bin_node "-" .SUB (local_var_node "a" 8) (local_var_node "b" 16))
            (local_var_node "c" 24)] :=
  ⟨fun f n0 ts s n ts' s' h => equality_fold_leftGrown f h LeftGrown.refl,
   fun f n0 ts s n ts' s' h => relation_fold_leftGrown f h LeftGrown.refl,
   fun f n0 ts s n ts' s' h => add_fold_leftGrown f h LeftGrown.refl,
   fun f n0 ts s n ts' s' h => mul_fold_leftGrown f h LeftGrown.refl,
   by decide⟩

/-- C4 witness: one concrete additive fold, `1 + 2`, grows the accumulated
node on the left. -/
theorem c4_left_assoc_witness :
    LeftGrown (number_node 1) (bin_node "+" NodeKind.ADD (number_node 1) (number_node 2)) :=
  c4_left_assoc.2.2.1 5 (number_node 1)
    [Token.reserved "+", Token.number 2, Token.eof] freshLVar
    (bin_node "+" NodeKind.ADD (number_node 1) (number_node 2)) [Token.eof] freshLVar
    (by decide)

/-- C5: `unary` desugars a leading `-` into a Sub node with a synthesized
Number 0 on the left and the parsed primary on the right; a leading `+`
returns the primary unchanged; and with neither sign present the primary is
returned unchanged. -/
theorem c5_unary_desugar : ∀ (f : Nat) (ts : List Token) (s : LVarState),
    (unary (f + 1) (Token.reserved "+" :: ts) s = primary f ts s) ∧
    (unary (f + 1) (Token.reserved "-" :: ts) s =
       Except.map (fun r => (zero_minus r.1, r.2)) (primary f ts s)) ∧
    (∀ ts2 ts3, consume "+" ts = (false, ts2) → consume "-" ts = (false, ts3) →
       unary (f + 1) ts s = primary f ts s) := by
  intro f ts s
  refine ⟨?_, ?_, ?_⟩
  · simp [unary, consume]
  · cases hp : primary f ts s with
    | error e => simp [unary, consume, hp, Except.map]
    | ok r =>
      obtain ⟨m, ts2, s2⟩ := r
      simp [unary, consume, hp, Except.map]
  · intro ts2 ts3 h2 h3
    simp [unary, h2, h3]

/-- C5 witness: on a bare number the sign-less branch applies. -/
theorem c5_unary_desugar_witness :
    unary 6 [Token.number 3, Token.eof] freshLVar =
      primary 5 [Token.number 3, Token.eof] freshLVar :=
  (c5_unary_desugar 5 [Token.number 3, Token.eof] freshLVar).2.2
    [Token.number 3, Token.eof] [Token.number 3, Token.eof] (by decide) (by decide)

/-- C6: lookup is idempotent — whenever the name is already present in the
chain (`find` succeeds with some offset), `create_new_local_var_node`
returns exactly that offset and the table state completely unchanged. -/
theorem c6_lookup_idempotent {s : LVarState} {name : String} {off : Nat}
    (h : find s.chain name = .ok off) :
    create_new_local_var_node s name = .ok (local_var_node name off, s) := by
  unfold create_new_local_var_node
  rw [h]

/-- C6 witness: a one-entry table, looked up again with the same name. -/
theorem c6_lookup_idempotent_witness :
    create_new_local_var_node ⟨[("x", 8)], some 0⟩ "x" =
      .ok (local_var_node "x" 8, (⟨[("x", 8)], some 0⟩ : LVarState)) :=
  c6_lookup_idempotent (by decide)

/-- C7: each grammar violation surfaces as its own error kind and parsing
yields no partial result: missing `;` (input `1 + 2`) gives the
unterminated-statement error, an unmatched `(` (input `(1 + 2 ;`) gives the
unbalanced-parenthesis error, and a primary position holding none of
number/identifier/`(` (input `1 + ;`) gives the unexpected-token error. -/
theorem c7_error_kinds :
    run 30 [Token.number 1, Token.reserved "+", Token.number 2, Token.eof] =
      .error .unterminatedStatement ∧
    run 30 [Token.reserved "(", Token.number 1, Token.reserved "+", Token.number 2,
            Token.reserved ";", Token.eof] = .error .unbalancedParen ∧
    run 30 [Token.number 1, Token.reserved "+", Token.reserved ";", Token.eof] =
      .error .notNumber :=
  ⟨by decide, by decide, by decide⟩

/-- C8: through the public lookup-or-allocate path, starting from a fresh
table, the chain-is-empty error branches of `get_offset` and
`proceed_pointer` (and the internal lookup failure) are unreachable: every
sequence of calls succeeds. -/
theorem c8_no_table_error : ∀ ns : List String,
    isOkE (processNames ns freshLVar) = true := by
  intro ns
  have h := processNames_stateOf ns []
  rw [stateOf_nil] at h
  rw [h]
  rfl

/-- C9: every node of every tree `run` returns satisfies the structural
invariant — Number and LocalVar nodes have both child slots empty, and every
other kind has both children populated. -/
theorem c9_structural_invariant : ∀ (f : Nat) (ts : List Token) (ns : List Node),
    run f ts = .ok ns → ns.all goodNode = true := by
  intro f ts ns h
  unfold run at h
  split at h
  · exact Except.noConfusion h
  · rename_i ns1 ts1 s1 hpr
    split at h
    · simp only [Except.ok.injEq] at h
      subst h
      exact (program_sound f hpr).2
    · exact Except.noConfusion h

/-- C9 witness: the parse of `1 ;` satisfies the invariant. -/
theorem c9_structural_invariant_witness :
    ([number_node 1] : List Node).all goodNode = true :=
  c9_structural_invariant 30 [Token.number 1, Token.reserved ";", Token.eof]
    [number_node 1] (by decide)

/-- C10: the trailing-tokens check in `run` is dead code — whenever `program`
returns normally the cursor already reports EOF, so `run` is exactly
`program`'s node list (the IndexError is never raised); in particular
`1 + 2 ; 3` fails inside `statement` with the unterminated-statement error,
not with the trailing-tokens error. -/
theorem c10_trailing_check_dead :
    (∀ (f : Nat) (ts : List Token),
       run f ts = Except.map (fun r => r.1) (program f ts freshLVar)) ∧
    run 30 [Token.number 1, Token.reserved "+", Token.number 2, Token.reserved ";",
            Token.number 3, Token.eof] = .error .unterminatedStatement := by
  constructor
  · intro f ts
    unfold run
    cases hpr : program f ts freshLVar with
    | error e => simp [Except.map]
    | ok r =>
      obtain ⟨ns, ts1, s1⟩ := r
      have he := program_eof f hpr
      simp [Except.map, he]
  · decide

/-- Fuel monotonicity at `f`: a successful parse stays the same result with
one more unit of fuel, for every rule function. -/
def MonoAt (f : Nat) : Prop :=
  (∀ ts s r, expression f ts s = .ok r → expression (f + 1) ts s = .ok r) ∧
  (∀ ts s r, assign f ts s = .ok r → assign (f + 1) ts s = .ok r) ∧
  (∀ ts s r, equality f ts s = .ok r → equality (f + 1) ts s = .ok r) ∧
  (∀ n0 ts s r, equality_fold f n0 ts s = .ok r → equality_fold (f + 1) n0 ts s = .ok r) ∧
  (∀ ts s r, relation f ts s = .ok r → relation (f + 1) ts s = .ok r) ∧
  (∀ n0 ts s r, relation_fold f n0 ts s = .ok r → relation_fold (f + 1) n0 ts s = .ok r) ∧
  (∀ ts s r, add f ts s = .ok r → add (f + 1) ts s = .ok r) ∧
  (∀ n0 ts s r, add_fold f n0 ts s = .ok r → add_fold (f + 1) n0 ts s = .ok r) ∧
  (∀ ts s r, mul f ts s = .ok r → mul (f + 1) ts s = .ok r) ∧
  (∀ n0 ts s r, mul_fold f n0 ts s = .ok r → mul_fold (f + 1) n0 ts s = .ok r) ∧
  (∀ ts s r, unary f ts s = .ok r → unary (f + 1) ts s = .ok r) ∧
  (∀ ts s r, primary f ts s = .ok r → primary (f + 1) ts s = .ok r)

theorem monoAt (f : Nat) : MonoAt f := by
  induction f with
  | zero =>
    exact ⟨fun ts s r h => Except.noConfusion h,
           fun ts s r h => Except.noConfusion h,
           fun ts s r h => Except.noConfusion h,
           fun n0 ts s r h => Except.noConfusion h,
           fun ts s r h => Except.noConfusion h,
           fun n0 ts s r h => Except.noConfusion h,
           fun ts s r h => Except.noConfusion h,
           fun n0 ts s r h => Except.noConfusion h,
           fun ts s r h => Except.noConfusion h,
           fun n0 ts s r h => Except.noConfusion h,
           fun ts s r h => Except.noConfusion h,
           fun ts s r h => Except.noConfusion h⟩
  | succ f ih =>
    obtain ⟨ihExpr, ihAsgn, ihEqy, ihEqyF, ihRel, ihRelF, ihAdd, ihAddF,
            ihMul, ihMulF, ihUnry, ihPrim⟩ := ih
    refine ⟨?_, ?_, ?_, ?_, ?_, ?_, ?_, ?_, ?_, ?_, ?_, ?_⟩
    · -- expression
      intro ts s r h
      simp only [expression] at h
      rw [expression]
      exact ihAsgn _ _ _ h
    · -- assign
      intro ts s r h
      simp only [assign] at h
      rw [assign]
      split at h
      · exact Except.noConfusion h
      · rename_i n1 ts1 s1 he
        simp only [ihEqy _ _ _ he]
        split at h
        · rename_i ts2 hc
          split at h
          · exact Except.noConfusion h
          · rename_i m ts3 s3 ha
            simp only [ihAsgn _ _ _ ha]
            exact h
        · rename_i ts2 hc
          exact h
    · -- equality
      intro ts s r h
      simp only [equality] at h
      rw [equality]
      split at h
      · exact Except.noConfusion h
      · rename_i n1 ts1 s1 he
        simp only [ihRel _ _ _ he]
        exact ihEqyF _ _ _ _ h
    · -- equality_fold
      intro n0 ts s r h
      simp only [equality_fold] at h
      rw [equality_fold]
      split at h
      · rename_i ts1 hc
        split at h
        · exact Except.noConfusion h
        · rename_i m ts2 s2 hr
          simp only [ihRel _ _ _ hr]
          exact ihEqyF _ _ _ _ h
      · rename_i tsx hcx
        split at h
        · rename_i ts1 hc
          split at h
          · exact Except.noConfusion h
          · rename_i m ts2 s2 hr
            simp only [ihRel _ _ _ hr]
            exact ihEqyF _ _ _ _ h
        · rename_i ts1 hc
          exact h
    · -- relation
      intro ts s r h
      simp only [relation] at h
      rw [relation]
      split at h
      · exact Except.noConfusion h
      · rename_i n1 ts1 s1 he
        simp only [ihAdd _ _ _ he]
        exact ihRelF _ _ _ _ h
    · -- relation_fold
      intro n0 ts s r h
      simp only [relation_fold] at h
      rw [relation_fold]
      split at h
      · rename_i ts1 hc
        split at h
        · exact Except.noConfusion h
        · rename_i m ts2 s2 hr
          simp only [ihAdd _ _ _ hr]
          exact ihRelF _ _ _ _ h
      · rename_i tsx hcx
        split at h
        · rename_i ts1 hc
          split at h
          · exact Except.noConfusion h
          · rename_i m ts2 s2 hr
            simp only [ihAdd _ _ _ hr]
            exact ihRelF _ _ _ _ h
        · rename_i tsy hcy
          split at h
          · rename_i ts1 hc
            split at h
            · exact Except.noConfusion h
            · rename_i m ts2 s2 hr
              simp only [ihAdd _ _ _ hr]
              exact ihRelF _ _ _ _ h
          · rename_i tsz hcz
            split at h
            · rename_i ts1 hc
              split at h
              · exact Except.noConfusion h
              · rename_i m ts2 s2 hr
                simp only [ihAdd _ _ _ hr]
                exact ihRelF _ _ _ _ h
            · rename_i ts1 hc
              exact h
    · -- add
      intro ts s r h
      simp only [add] at h
      rw [add]
      split at h
      · exact Except.noConfusion h
      · rename_i n1 ts1 s1 he
        simp only [ihMul _ _ _ he]
        exact ihAddF _ _ _ _ h
    · -- add_fold
      intro n0 ts s r h
      simp only [add_fold] at h
      rw [add_fold]
      split at h
      · rename_i ts1 hc
        split at h
        · exact Except.noConfusion h
        · rename_i m ts2 s2 hr
          simp only [ihMul _ _ _ hr]
          exact ihAddF _ _ _ _ h
      · rename_i tsx hcx
        split at h
        · rename_i ts1 hc
          split at h
          · exact Except.noConfusion h
          · rename_i m ts2 s2 hr
            simp only [ihMul _ _ _ hr]
            exact ihAddF _ _ _ _ h
        · rename_i ts1 hc
          exact h
    · -- mul
      intro ts s r h
      simp only [mul] at h
      rw [mul]
      split at h
      · exact Except.noConfusion h
      · rename_i n1 ts1 s1 he
        simp only [ihUnry _ _ _ he]
        exact ihMulF _ _ _ _ h
    · -- mul_fold
      intro n0 ts s r h
      simp only [mul_fold] at h
      rw [mul_fold]
      split at h
      · rename_i ts1 hc
        split at h
        · exact Except.noConfusion h
        · rename_i m ts2 s2 hr
          simp only [ihUnry _ _ _ hr]
          exact ihMulF _ _ _ _ h
      · rename_i tsx hcx
        split at h
        · rename_i ts1 hc
          split at h
          · exact Except.noConfusion h
          · rename_i m ts2 s2 hr
            simp only [ihUnry _ _ _ hr]
            exact ihMulF _ _ _ _ h
        · rename_i ts1 hc
          exact h
    · -- unary
      intro ts s r h
      simp only [unary] at h
      rw [unary]
      split at h
      · rename_i ts1 hc
        exact ihPrim _ _ _ h
      · rename_i tsx hcx
        split at h
        · rename_i ts1 hc
          split at h
          · exact Except.noConfusion h
          · rename_i m ts2 s2 hp
            simp only [ihPrim _ _ _ hp]
            exact h
        · rename_i ts1 hc
          exact ihPrim _ _ _ h
    · -- primary
      intro ts s r h
      simp only [primary] at h ⊢
      split at h
      · rename_i ts1 hc
        split at h
        · exact Except.noConfusion h
        · rename_i n1 ts2 s2 hex
          simp only [ihExpr _ _ _ hex]
          split at h
          · rename_i ts3 hc2
            exact h
          · exact Except.noConfusion h
      · rename_i tsx hcx
        cases ts with
        | nil => exact Except.noConfusion h
        | cons t ts1 =>
          cases t with
          | number v => exact h
          | identifier name =>
            dsimp only at h ⊢
            cases hcr : create_new_local_var_node s name with
            | error e =>
              rw [hcr] at h
              exact Except.noConfusion h
            | ok p =>
              obtain ⟨node, s1⟩ := p
              rw [hcr] at h
              exact h
          | reserved q => exact Except.noConfusion h
          | eof => exact Except.noConfusion h

theorem consume_self (s : String) (ts : List Token) :
    consume s (Token.reserved s :: ts) = (true, ts) := by
  simp [consume]

theorem consume_ne {q s : String} (h : q ≠ s) (ts : List Token) :
    consume s (Token.reserved q :: ts) = (false, Token.reserved q :: ts) := by
  simp [consume, h]

theorem consume_num (s : String) (v : Int) (ts : List Token) :
    consume s (Token.number v :: ts) = (false, Token.number v :: ts) := rfl

theorem consume_ident (s x : String) (ts : List Token) :
    consume s (Token.identifier x :: ts) = (false, Token.identifier x :: ts) := rfl

theorem consume_eof (s : String) (ts : List Token) :
    consume s (Token.eof :: ts) = (false, Token.eof :: ts) := rfl

theorem create_stateOf (ds : List String) (x : String) :
    ∃ node, create_new_local_var_node (stateOf ds) x =
      .ok (node, stateOf (ds ++ firstSeenFrom ds [x])) := by
  have h := processNames_stateOf [x] ds
  simp only [processNames] at h
  split at h
  · exact Except.noConfusion h
  · rename_i node s1 hcr
    simp only [Except.ok.injEq, Prod.mk.injEq] at h
    obtain ⟨hn, hs⟩ := h
    exact ⟨node, by rw [hcr, hs]⟩

/-- No multiplicative operator is consumable at this position. -/
def mulStop (ts : List Token) : Prop :=
  (consume "*" ts).1 = false ∧ (consume "/" ts).1 = false

/-- No additive (or tighter) operator is consumable at this position. -/
def addStop (ts : List Token) : Prop :=
  (consume "+" ts).1 = false ∧ (consume "-" ts).1 = false ∧ mulStop ts

/-- No relational (or tighter) operator is consumable at this position. -/
def relStop (ts : List Token) : Prop :=
  (consume ">=" ts).1 = false ∧ (consume ">" ts).1 = false ∧
    (consume "<=" ts).1 = false ∧ (consume "<" ts).1 = false ∧ addStop ts

/-- No equality (or tighter) operator is consumable at this position. -/
def eqyStop (ts : List Token) : Prop :=
  (consume "==" ts).1 = false ∧ (consume "!=" ts).1 = false ∧ relStop ts

/-- No expression operator at all is consumable at this position. -/
def asgnStop (ts : List Token) : Prop :=
  (consume "=" ts).1 = false ∧ eqyStop ts

theorem mulStop_of_op {op : String} (h1 : op ≠ "*") (h2 : op ≠ "/")
    (ts : List Token) : mulStop (Token.reserved op :: ts) := by
  exact ⟨by rw [consume_ne h1], by rw [consume_ne h2]⟩

theorem addStop_of_op {op : String} (h1 : op ≠ "+") (h2 : op ≠ "-")
    (h3 : op ≠ "*") (h4 : op ≠ "/") (ts : List Token) :
    addStop (Token.reserved op :: ts) :=
  ⟨by rw [consume_ne h1], by rw [consume_ne h2], mulStop_of_op h3 h4 ts⟩

theorem relStop_of_op {op : String} (h1 : op ≠ ">=") (h2 : op ≠ ">")
    (h3 : op ≠ "<=") (h4 : op ≠ "<") (h5 : op ≠ "+") (h6 : op ≠ "-")
    (h7 : op ≠ "*") (h8 : op ≠ "/") (ts : List Token) :
    relStop (Token.reserved op :: ts) :=
  ⟨by rw [consume_ne h1], by rw [consume_ne h2], by rw [consume_ne h3],
   by rw [consume_ne h4], addStop_of_op h5 h6 h7 h8 ts⟩

theorem eqyStop_of_op {op : String} (h1 : op ≠ "==") (h2 : op ≠ "!=")
    (h3 : op ≠ ">=") (h4 : op ≠ ">") (h5 : op ≠ "<=") (h6 : op ≠ "<")
    (h7 : op ≠ "+") (h8 : op ≠ "-") (h9 : op ≠ "*") (h10 : op ≠ "/")
    (ts : List Token) : eqyStop (Token.reserved op :: ts) :=
  ⟨by rw [consume_ne h1], by rw [consume_ne h2],
   relStop_of_op h3 h4 h5 h6 h7 h8 h9 h10 ts⟩

theorem asgnStop_of_op {op : String} (h0 : op ≠ "=") (h1 : op ≠ "==")
    (h2 : op ≠ "!=") (h3 : op ≠ ">=") (h4 : op ≠ ">") (h5 : op ≠ "<=")
    (h6 : op ≠ "<") (h7 : op ≠ "+") (h8 : op ≠ "-") (h9 : op ≠ "*")
    (h10 : op ≠ "/") (ts : List Token) : asgnStop (Token.reserved op :: ts) :=
  ⟨by rw [consume_ne h0], eqyStop_of_op h1 h2 h3 h4 h5 h6 h7 h8 h9 h10 ts⟩

/-- Exact-parse property of rule function `X` over the span from `ts` to
`rest`: from every canonical table state, for all sufficiently large fuel,
`X` succeeds consuming exactly to `rest`, with a canonical output state. -/
def ExactF (X : Nat → List Token → LVarState → Except ParseErr PResult)
    (ts rest : List Token) : Prop :=
  ∀ ds, ∃ f0 n2 ds2, ∀ f, f0 ≤ f →
    X f ts (stateOf ds) = .ok (n2, rest, stateOf ds2)

/-- Operator/operand segments of one left-associative loop, read towards the
fixed endpoint `rest`: each segment is a reserved operator from `ops`
followed by an operand span satisfying `E`. -/
inductive TailX (E : List Token → List Token → Prop) (ops : List String)
    (rest : List Token) : List Token → Prop where
  | nil : TailX E ops rest rest
  | cons : op ∈ ops → E ts2 r → TailX E ops rest r →
      TailX E ops rest (Token.reserved op :: ts2)

theorem TailX.snoc {E : List Token → List Token → Prop} {ops : List String}
    {op : String} {ts2 r1 rest : List Token}
    (t : TailX E ops (Token.reserved op :: ts2) r1)
    (hop : op ∈ ops) (e : E ts2 rest) : TailX E ops rest r1 := by
  induction t with
  | nil => exact TailX.cons hop e TailX.nil
  | cons hop' e' t' ih => exact TailX.cons hop' e' ih

theorem TailX.head_shape {E : List Token → List Token → Prop}
    {ops : List String} {r rest : List Token} (t : TailX E ops rest r) :
    r = rest ∨ ∃ op ts2, op ∈ ops ∧ r = Token.reserved op :: ts2 := by
  cases t with
  | nil => exact Or.inl rfl
  | cons hop e t' => exact Or.inr ⟨_, _, hop, rfl⟩

theorem mul_fold_exact {rest r1 : List Token}
    (t : TailX (ExactF unary) ["*", "/"] rest r1) (hstop : mulStop rest) :
    ∀ n0 ds, ∃ f0 n2 ds2, ∀ f, f0 ≤ f →
      mul_fold f n0 r1 (stateOf ds) = .ok (n2, rest, stateOf ds2) := by
  induction t with
  | nil =>
    intro n0 ds
    refine ⟨1, n0, ds, ?_⟩
    intro f hf
    obtain ⟨g, rfl⟩ : ∃ g, f = g + 1 := ⟨f - 1, by omega⟩
    obtain ⟨h1, h2⟩ := hstop
    cases hc1 : consume "*" rest with
    | mk b1 tb1 =>
      simp only [hc1] at h1
      subst h1
      cases hc2 : consume "/" rest with
      | mk b2 tb2 =>
        simp only [hc2] at h2
        subst h2
        simp only [mul_fold, hc1, hc2]
  | cons hop e t' ih =>
    rename_i op ts2 r
    intro n0 ds
    obtain ⟨f1, m2, ds2, He⟩ := e ds
    simp only [List.mem_cons, List.not_mem_nil, or_false] at hop
    rcases hop with hop | hop
    · subst hop
      obtain ⟨f2, n2, ds3, Hf⟩ := ih (bin_node "*" .MUL n0 m2) ds2
      refine ⟨f1 + f2 + 1, n2, ds3, ?_⟩
      intro f hf
      obtain ⟨g, rfl⟩ : ∃ g, f = g + 1 := ⟨f - 1, by omega⟩
      simp only [mul_fold, consume_self, He g (by omega), Hf g (by omega)]
    · subst hop
      obtain ⟨f2, n2, ds3, Hf⟩ := ih (bin_node "/" .DIV n0 m2) ds2
      refine ⟨f1 + f2 + 1, n2, ds3, ?_⟩
      intro f hf
      obtain ⟨g, rfl⟩ : ∃ g, f = g + 1 := ⟨f - 1, by omega⟩
      simp only [mul_fold, consume_ne (show "/" ≠ "*" by decide), consume_self,
                 He g (by omega), Hf g (by omega)]

theorem mull_decomp_exact {ts rest : List Token}
    (h : ∃ r1, ExactF unary ts r1 ∧ TailX (ExactF unary) ["*", "/"] rest r1)
    (hstop : mulStop rest) : ExactF mul ts rest := by
  obtain ⟨r1, e1, t⟩ := h
  intro ds
  obtain ⟨f1, a2, ds2, He⟩ := e1 ds
  obtain ⟨f2, n2, ds3, Hf⟩ := mul_fold_exact t hstop a2 ds2
  refine ⟨f1 + f2 + 1, n2, ds3, ?_⟩
  intro f hf
  obtain ⟨g, rfl⟩ : ∃ g, f = g + 1 := ⟨f - 1, by omega⟩
  simp only [mul, He g (by omega), Hf g (by omega)]

theorem add_fold_exact {rest r1 : List Token}
    (t : TailX (fun ts2 r => mulStop r → ExactF mul ts2 r) ["+", "-"] rest r1)
    (hstop : addStop rest) :
    ∀ n0 ds, ∃ f0 n2 ds2, ∀ f, f0 ≤ f →
      add_fold f n0 r1 (stateOf ds) = .ok (n2, rest, stateOf ds2) := by
  induction t with
  | nil =>
    intro n0 ds
    refine ⟨1, n0, ds, ?_⟩
    intro f hf
    obtain ⟨g, rfl⟩ : ∃ g, f = g + 1 := ⟨f - 1, by omega⟩
    obtain ⟨h1, h2, _⟩ := hstop
    cases hc1 : consume "+" rest with
    | mk b1 tb1 =>
      simp only [hc1] at h1
      subst h1
      cases hc2 : consume "-" rest with
      | mk b2 tb2 =>
        simp only [hc2] at h2
        subst h2
        simp only [add_fold, hc1, hc2]
  | cons hop e t' ih =>
    rename_i op ts2 r
    intro n0 ds
    have hmul : mulStop r := by
      rcases t'.head_shape with hr | ⟨op', ts3, hop', hr⟩
      · subst hr
        exact hstop.2.2
      · subst hr
        simp only [List.mem_cons, List.not_mem_nil, or_false] at hop'
        rcases hop' with h | h <;> subst h
        · exact mulStop_of_op (by decide) (by decide) ts3
        · exact mulStop_of_op (by decide) (by decide) ts3
    obtain ⟨f1, m2, ds2, He⟩ := e hmul ds
    simp only [List.mem_cons, List.not_mem_nil, or_false] at hop
    rcases hop with hop | hop
    · subst hop
      obtain ⟨f2, n2, ds3, Hf⟩ := ih (bin_node "+" .ADD n0 m2) ds2
      refine ⟨f1 + f2 + 1, n2, ds3, ?_⟩
      intro f hf
      obtain ⟨g, rfl⟩ : ∃ g, f = g + 1 := ⟨f - 1, by omega⟩
      simp only [add_fold, consume_self, He g (by omega), Hf g (by omega)]
    · subst hop
      obtain ⟨f2, n2, ds3, Hf⟩ := ih (bin_node "-" .SUB n0 m2) ds2
      refine ⟨f1 + f2 + 1, n2, ds3, ?_⟩
      intro f hf
      obtain ⟨g, rfl⟩ : ∃ g, f = g + 1 := ⟨f - 1, by omega⟩
      simp only [add_fold, consume_ne (show "-" ≠ "+" by decide), consume_self,
                 He g (by omega), Hf g (by omega)]

theorem add_decomp_exact {ts rest : List Token}
    (h : ∃ r1, (mulStop r1 → ExactF mul ts r1) ∧
         TailX (fun ts2 r => mulStop r → ExactF mul ts2 r) ["+", "-"] rest r1)
    (hstop : addStop rest) : ExactF add ts rest := by
  obtain ⟨r1, e1, t⟩ := h
  have hmul : mulStop r1 := by
    rcases t.head_shape with hr | ⟨op', ts3, hop', hr⟩
    · subst hr
      exact hstop.2.2
    · subst hr
      simp only [List.mem_cons, List.not_mem_nil, or_false] at hop'
      rcases hop' with h | h <;> subst h
      · exact mulStop_of_op (by decide) (by decide) ts3
      · exact mulStop_of_op (by decide) (by decide) ts3
  intro ds
  obtain ⟨f1, a2, ds2, He⟩ := e1 hmul ds
  obtain ⟨f2, n2, ds3, Hf⟩ := add_fold_exact t hstop a2 ds2
  refine ⟨f1 + f2 + 1, n2, ds3, ?_⟩
  intro f hf
  obtain ⟨g, rfl⟩ : ∃ g, f = g + 1 := ⟨f - 1, by omega⟩
  simp only [add, He g (by omega), Hf g (by omega)]

theorem relation_fold_exact {rest r1 : List Token}
    (t : TailX (fun ts2 r => addStop r → ExactF add ts2 r)
          [">=", ">", "<=", "<"] rest r1)
    (hstop : relStop rest) :
    ∀ n0 ds, ∃ f0 n2 ds2, ∀ f, f0 ≤ f →
      relation_fold f n0 r1 (stateOf ds) = .ok (n2, rest, stateOf ds2) := by
  induction t with
  | nil =>
    intro n0 ds
    refine ⟨1, n0, ds, ?_⟩
    intro f hf
    obtain ⟨g, rfl⟩ : ∃ g, f = g + 1 := ⟨f - 1, by omega⟩
    obtain ⟨h1, h2, h3, h4, _⟩ := hstop
    cases hc1 : consume ">=" rest with
    | mk b1 tb1 =>
      simp only [hc1] at h1
      subst h1
      cases hc2 : consume ">" rest with
      | mk b2 tb2 =>
        simp only [hc2] at h2
        subst h2
        cases hc3 : consume "<=" rest with
        | mk b3 tb3 =>
          simp only [hc3] at h3
          subst h3
          cases hc4 : consume "<" rest with
          | mk b4 tb4 =>
            simp only [hc4] at h4
            subst h4
            simp only [relation_fold, hc1, hc2, hc3, hc4]
  | cons hop e t' ih =>
    rename_i op ts2 r
    intro n0 ds
    have hadd : addStop r := by
      rcases t'.head_shape with hr | ⟨op', ts3, hop', hr⟩
      · subst hr
        exact hstop.2.2.2.2
      · subst hr
        simp only [List.mem_cons, List.not_mem_nil, or_false] at hop'
        rcases hop' with h | h | h | h <;> subst h
        · exact addStop_of_op (by decide) (by decide) (by decide) (by decide) ts3
        · exact addStop_of_op (by decide) (by decide) (by decide) (by decide) ts3
        · exact addStop_of_op (by decide) (by decide) (by decide) (by decide) ts3
        · exact addStop_of_op (by decide) (by decide) (by decide) (by decide) ts3
    obtain ⟨f1, m2, ds2, He⟩ := e hadd ds
    simp only [List.mem_cons, List.not_mem_nil, or_false] at hop
    rcases hop with hop | hop | hop | hop
    · subst hop
      obtain ⟨f2, n2, ds3, Hf⟩ := ih (bin_node ">=" .GREATER_EQUAL n0 m2) ds2
      refine ⟨f1 + f2 + 1, n2, ds3, ?_⟩
      intro f hf
      obtain ⟨g, rfl⟩ : ∃ g, f = g + 1 := ⟨f - 1, by omega⟩
      simp only [relation_fold, consume_self, He g (by omega), Hf g (by omega)]
    · subst hop
      obtain ⟨f2, n2, ds3, Hf⟩ := ih (bin_node ">" .GREATER n0 m2) ds2
      refine ⟨f1 + f2 + 1, n2, ds3, ?_⟩
      intro f hf
      obtain ⟨g, rfl⟩ : ∃ g, f = g + 1 := ⟨f - 1, by omega⟩
      simp only [relation_fold, consume_ne (show ">" ≠ ">=" by decide),
                 consume_self, He g (by omega), Hf g (by omega)]
    · subst hop
      obtain ⟨f2, n2, ds3, Hf⟩ := ih (bin_node "<=" .LOWER_EQUAL n0 m2) ds2
      refine ⟨f1 + f2 + 1, n2, ds3, ?_⟩
      intro f hf
      obtain ⟨g, rfl⟩ : ∃ g, f = g + 1 := ⟨f - 1, by omega⟩
      simp only [relation_fold, consume_ne (show "<=" ≠ ">=" by decide),
                 consume_ne (show "<=" ≠ ">" by decide), consume_self,
                 He g (by omega), Hf g (by omega)]
    · subst hop
      obtain ⟨f2, n2, ds3, Hf⟩ := ih (bin_node "<" .LOWER n0 m2) ds2
      refine ⟨f1 + f2 + 1, n2, ds3, ?_⟩
      intro f hf
      obtain ⟨g, rfl⟩ : ∃ g, f = g + 1 := ⟨f - 1, by omega⟩
      simp only [relation_fold, consume_ne (show "<" ≠ ">=" by decide),
                 consume_ne (show "<" ≠ ">" by decide),
                 consume_ne (show "<" ≠ "<=" by decide), consume_self,
                 He g (by omega), Hf g (by omega)]

theorem rel_decomp_exact {ts rest : List Token}
    (h : ∃ r1, (addStop r1 → ExactF add ts r1) ∧
         TailX (fun ts2 r => addStop r → ExactF add ts2 r)
           [">=", ">", "<=", "<"] rest r1)
    (hstop : relStop rest) : ExactF relation ts rest := by
  obtain ⟨r1, e1, t⟩ := h
  have hadd : addStop r1 := by
    rcases t.head_shape with hr | ⟨op', ts3, hop', hr⟩
    · subst hr
      exact hstop.2.2.2.2
    · subst hr
      simp only [List.mem_cons, List.not_mem_nil, or_false] at hop'
      rcases hop' with h | h | h | h <;> subst h
      · exact addStop_of_op (by decide) (by decide) (by decide) (by decide) ts3
      · exact addStop_of_op (by decide) (by decide) (by decide) (by decide) ts3
      · exact addStop_of_op (by decide) (by decide) (by decide) (by decide) ts3
      · exact addStop_of_op (by decide) (by decide) (by decide) (by decide) ts3
  intro ds
  obtain ⟨f1, a2, ds2, He⟩ := e1 hadd ds
  obtain ⟨f2, n2, ds3, Hf⟩ := relation_fold_exact t hstop a2 ds2
  refine ⟨f1 + f2 + 1, n2, ds3, ?_⟩
  intro f hf
  obtain ⟨g, rfl⟩ : ∃ g, f = g + 1 := ⟨f - 1, by omega⟩
  simp only [relation, He g (by omega), Hf g (by omega)]

theorem equality_fold_exact {rest r1 : List Token}
    (t : TailX (fun ts2 r => relStop r → ExactF relation ts2 r)
          ["==", "!="] rest r1)
    (hstop : eqyStop rest) :
    ∀ n0 ds, ∃ f0 n2 ds2, ∀ f, f0 ≤ f →
      equality_fold f n0 r1 (stateOf ds) = .ok (n2, rest, stateOf ds2) := by
  induction t with
  | nil =>
    intro n0 ds
    refine ⟨1, n0, ds, ?_⟩
    intro f hf
    obtain ⟨g, rfl⟩ : ∃ g, f = g + 1 := ⟨f - 1, by omega⟩
    obtain ⟨h1, h2, _⟩ := hstop
    cases hc1 : consume "==" rest with
    | mk b1 tb1 =>
      simp only [hc1] at h1
      subst h1
      cases hc2 : consume "!=" rest with
      | mk b2 tb2 =>
        simp only [hc2] at h2
        subst h2
        simp only [equality_fold, hc1, hc2]
  | cons hop e t' ih =>
    rename_i op ts2 r
    intro n0 ds
    have hrel : relStop r := by
      rcases t'.head_shape with hr | ⟨op', ts3, hop', hr⟩
      · subst hr
        exact hstop.2.2
      · subst hr
        simp only [List.mem_cons, List.not_mem_nil, or_false] at hop'
        rcases hop' with h | h <;> subst h
        · exact relStop_of_op (by decide) (by decide) (by decide) (by decide)
            (by decide) (by decide) (by decide) (by decide) ts3
        · exact relStop_of_op (by decide) (by decide) (by decide) (by decide)
            (by decide) (by decide) (by decide) (by decide) ts3
    obtain ⟨f1, m2, ds2, He⟩ := e hrel ds
    simp only [List.mem_cons, List.not_mem_nil, or_false] at hop
    rcases hop with hop | hop
    · subst hop
      obtain ⟨f2, n2, ds3, Hf⟩ := ih (bin_node "==" .EQUAL n0 m2) ds2
      refine ⟨f1 + f2 + 1, n2, ds3, ?_⟩
      intro f hf
      obtain ⟨g, rfl⟩ : ∃ g, f = g + 1 := ⟨f - 1, by omega⟩
      simp only [equality_fold, consume_self, He g (by omega), Hf g (by omega)]
    · subst hop
      obtain ⟨f2, n2, ds3, Hf⟩ := ih (bin_node "!=" .NOT_EQUAL n0 m2) ds2
      refine ⟨f1 + f2 + 1, n2, ds3, ?_⟩
      intro f hf
      obtain ⟨g, rfl⟩ : ∃ g, f = g + 1 := ⟨f - 1, by omega⟩
      simp only [equality_fold, consume_ne (show "!=" ≠ "==" by decide),
                 consume_self, He g (by omega), Hf g (by omega)]

theorem eqy_decomp_exact {ts rest : List Token}
    (h : ∃ r1, (relStop r1 → ExactF relation ts r1) ∧
         TailX (fun ts2 r => relStop r → ExactF relation ts2 r)
           ["==", "!="] rest r1)
    (hstop : eqyStop rest) : ExactF equality ts rest := by
  obtain ⟨r1, e1, t⟩ := h
  have hrel : relStop r1 := by
    rcases t.head_shape with hr | ⟨op', ts3, hop', hr⟩
    · subst hr
      exact hstop.2.2
    · subst hr
      simp only [List.mem_cons, List.not_mem_nil, or_false] at hop'
      rcases hop' with h | h <;> subst h
      · exact relStop_of_op (by decide) (by decide) (by decide) (by decide)
          (by decide) (by decide) (by decide) (by decide) ts3
      · exact relStop_of_op (by decide) (by decide) (by decide) (by decide)
          (by decide) (by decide) (by decide) (by decide) ts3
  intro ds
  obtain ⟨f1, a2, ds2, He⟩ := e1 hrel ds
  obtain ⟨f2, n2, ds3, Hf⟩ := equality_fold_exact t hstop a2 ds2
  refine ⟨f1 + f2 + 1, n2, ds3, ?_⟩
  intro f hf
  obtain ⟨g, rfl⟩ : ∃ g, f = g + 1 := ⟨f - 1, by omega⟩
  simp only [equality, He g (by omega), Hf g (by omega)]

/-- Exactness statement attached to each grammar level: the two highest
levels parse exactly to the derivation's endpoint when no expression
operator follows it; each left-associative level is decomposed into its
first operand plus an operator/operand chain; `unary` and `primary` parse
exactly unconditionally. -/
abbrev ExactMotive : Lvl → List Token → Node → List Token → Prop
  | .expr, ts, _, rest => asgnStop rest → ExactF expression ts rest
  | .asgn, ts, _, rest => asgnStop rest → ExactF assign ts rest
  | .eqy, ts, _, rest =>
      ∃ r1, (relStop r1 → ExactF relation ts r1) ∧
        TailX (fun ts2 r => relStop r → ExactF relation ts2 r) ["==", "!="] rest r1
  | .rel, ts, _, rest =>
      ∃ r1, (addStop r1 → ExactF add ts r1) ∧
        TailX (fun ts2 r => addStop r → ExactF add ts2 r) [">=", ">", "<=", "<"] rest r1
  | .addl, ts, _, rest =>
      ∃ r1, (mulStop r1 → ExactF mul ts r1) ∧
        TailX (fun ts2 r => mulStop r → ExactF mul ts2 r) ["+", "-"] rest r1
  | .mull, ts, _, rest =>
      ∃ r1, ExactF unary ts r1 ∧ TailX (ExactF unary) ["*", "/"] rest r1
  | .unry, ts, _, rest => ExactF unary ts rest
  | .prim, ts, _, rest => ExactF primary ts rest

theorem deriv_exact {lvl : Lvl} {ts : List Token} {n : Node}
    {rest : List Token} (d : Deriv lvl ts n rest) :
    ExactMotive lvl ts n rest := by
  induction d with
  | exprA d ih =>
    intro hstop ds
    obtain ⟨f1, n2, ds2, H⟩ := ih hstop ds
    refine ⟨f1 + 1, n2, ds2, ?_⟩
    intro f hf
    obtain ⟨g, rfl⟩ : ∃ g, f = g + 1 := ⟨f - 1, by omega⟩
    simp only [expression, H g (by omega)]
  | asgnBase d ih =>
    rename_i ts0 n0 rest0
    intro hstop
    have he := eqy_decomp_exact ih hstop.2
    intro ds
    obtain ⟨f1, n2, ds2, H⟩ := he ds
    refine ⟨f1 + 1, n2, ds2, ?_⟩
    intro f hf
    obtain ⟨g, rfl⟩ : ∃ g, f = g + 1 := ⟨f - 1, by omega⟩
    obtain ⟨h1, _⟩ := hstop
    cases hc1 : consume "=" rest0 with
    | mk b1 tb1 =>
      simp only [hc1] at h1
      subst h1
      simp only [assign, H g (by omega), hc1]
  | asgnStep d1 d2 ih1 ih2 =>
    intro hstop ds
    have he := eqy_decomp_exact ih1
      (eqyStop_of_op (by decide) (by decide) (by decide) (by decide) (by decide)
        (by decide) (by decide) (by decide) (by decide) (by decide) _)
    obtain ⟨f1, n2, ds2, H1⟩ := he ds
    obtain ⟨f2, m2, ds3, H2⟩ := ih2 hstop ds2
    refine ⟨f1 + f2 + 1, bin_node "=" .ASSIGN n2 m2, ds3, ?_⟩
    intro f hf
    obtain ⟨g, rfl⟩ : ∃ g, f = g + 1 := ⟨f - 1, by omega⟩
    simp only [assign, H1 g (by omega), consume_self, H2 g (by omega)]
  | eqyBase d ih =>
    exact ⟨_, fun h => rel_decomp_exact ih h, TailX.nil⟩
  | eqyEq d1 d2 ih1 ih2 =>
    obtain ⟨r1, first, t⟩ := ih1
    exact ⟨r1, first, t.snoc (by decide) (fun h => rel_decomp_exact ih2 h)⟩
  | eqyNe d1 d2 ih1 ih2 =>
    obtain ⟨r1, first, t⟩ := ih1
    exact ⟨r1, first, t.snoc (by decide) (fun h => rel_decomp_exact ih2 h)⟩
  | relBase d ih =>
    exact ⟨_, fun h => add_decomp_exact ih h, TailX.nil⟩
  | relGe d1 d2 ih1 ih2 =>
    obtain ⟨r1, first, t⟩ := ih1
    exact ⟨r1, first, t.snoc (by decide) (fun h => add_decomp_exact ih2 h)⟩
  | relGt d1 d2 ih1 ih2 =>
    obtain ⟨r1, first, t⟩ := ih1
    exact ⟨r1, first, t.snoc (by decide) (fun h => add_decomp_exact ih2 h)⟩
  | relLe d1 d2 ih1 ih2 =>
    obtain ⟨r1, first, t⟩ := ih1
    exact ⟨r1, first, t.snoc (by decide) (fun h => add_decomp_exact ih2 h)⟩
  | relLt d1 d2 ih1 ih2 =>
    obtain ⟨r1, first, t⟩ := ih1
    exact ⟨r1, first, t.snoc (by decide) (fun h => add_decomp_exact ih2 h)⟩
  | addBase d ih =>
    exact ⟨_, fun h => mull_decomp_exact ih h, TailX.nil⟩
  | addAdd d1 d2 ih1 ih2 =>
    obtain ⟨r1, first, t⟩ := ih1
    exact ⟨r1, first, t.snoc (by decide) (fun h => mull_decomp_exact ih2 h)⟩
  | addSub d1 d2 ih1 ih2 =>
    obtain ⟨r1, first, t⟩ := ih1
    exact ⟨r1, first, t.snoc (by decide) (fun h => mull_decomp_exact ih2 h)⟩
  | mulBase d ih =>
    exact ⟨_, ih, TailX.nil⟩
  | mulMul d1 d2 ih1 ih2 =>
    obtain ⟨r1, first, t⟩ := ih1
    exact ⟨r1, first, t.snoc (by decide) ih2⟩
  | mulDiv d1 d2 ih1 ih2 =>
    obtain ⟨r1, first, t⟩ := ih1
    exact ⟨r1, first, t.snoc (by decide) ih2⟩
  | unryPos d ih =>
    intro ds
    obtain ⟨f1, n2, ds2, H⟩ := ih ds
    refine ⟨f1 + 1, n2, ds2, ?_⟩
    intro f hf
    obtain ⟨g, rfl⟩ : ∃ g, f = g + 1 := ⟨f - 1, by omega⟩
    simp only [unary, consume_self, H g (by omega)]
  | unryNeg d ih =>
    intro ds
    obtain ⟨f1, n2, ds2, H⟩ := ih ds
    refine ⟨f1 + 1, zero_minus n2, ds2, ?_⟩
    intro f hf
    obtain ⟨g, rfl⟩ : ∃ g, f = g + 1 := ⟨f - 1, by omega⟩
    simp only [unary, consume_ne (show "-" ≠ "+" by decide), consume_self,
               H g (by omega)]
  | unryNone d ih =>
    cases d with
    | primNum =>
      intro ds
      obtain ⟨f1, n2, ds2, H⟩ := ih ds
      refine ⟨f1 + 1, n2, ds2, ?_⟩
      intro f hf
      obtain ⟨g, rfl⟩ : ∃ g, f = g + 1 := ⟨f - 1, by omega⟩
      simp only [unary, consume_num, H g (by omega)]
    | primIdent =>
      intro ds
      obtain ⟨f1, n2, ds2, H⟩ := ih ds
      refine ⟨f1 + 1, n2, ds2, ?_⟩
      intro f hf
      obtain ⟨g, rfl⟩ : ∃ g, f = g + 1 := ⟨f - 1, by omega⟩
      simp only [unary, consume_ident, H g (by omega)]
    | primParen d0 =>
      intro ds
      obtain ⟨f1, n2, ds2, H⟩ := ih ds
      refine ⟨f1 + 1, n2, ds2, ?_⟩
      intro f hf
      obtain ⟨g, rfl⟩ : ∃ g, f = g + 1 := ⟨f - 1, by omega⟩
      simp only [unary, consume_ne (show "(" ≠ "+" by decide),
                 consume_ne (show "(" ≠ "-" by decide), H g (by omega)]
  | primNum =>
    rename_i v ts0
    intro ds
    refine ⟨1, number_node v, ds, ?_⟩
    intro f hf
    obtain ⟨g, rfl⟩ : ∃ g, f = g + 1 := ⟨f - 1, by omega⟩
    simp only [primary, consume_num]
  | primIdent =>
    rename_i x ts0 off
    intro ds
    obtain ⟨node, hcr⟩ := create_stateOf ds x
    refine ⟨1, node, ds ++ firstSeenFrom ds [x], ?_⟩
    intro f hf
    obtain ⟨g, rfl⟩ : ∃ g, f = g + 1 := ⟨f - 1, by omega⟩
    simp only [primary, consume_ident, hcr]
  | primParen d ih =>
    rename_i ts0 n0 rest0
    have hstop' := asgnStop_of_op (show (")" : String) ≠ "=" by decide)
      (by decide) (by decide) (by decide) (by decide) (by decide) (by decide)
      (by decide) (by decide) (by decide) (by decide) rest0
    intro ds
    obtain ⟨f1, n2, ds2, H⟩ := ih hstop' ds
    refine ⟨f1 + 1, n2, ds2, ?_⟩
    intro f hf
    obtain ⟨g, rfl⟩ : ∃ g, f = g + 1 := ⟨f - 1, by omega⟩
    simp only [primary, consume_self, H g (by omega)]

theorem dstmt_exact {ts : List Token} {n : Node} {ts' : List Token}
    (d : DStmt ts n ts') :
    ∀ ds, ∃ f0 n2 ds2, ∀ f, f0 ≤ f →
      statement f ts (stateOf ds) = .ok (n2, ts', stateOf ds2) := by
  cases d with
  | mk d0 =>
    intro ds
    have hstop := asgnStop_of_op (show ((";" : String)) ≠ "=" by decide)
      (by decide) (by decide) (by decide) (by decide) (by decide) (by decide)
      (by decide) (by decide) (by decide) (by decide) ts'
    obtain ⟨f1, n2, ds2, H⟩ := deriv_exact d0 hstop ds
    refine ⟨f1, n2, ds2, ?_⟩
    intro f hf
    unfold statement
    simp only [H f hf, consume_self]

theorem dprog_eof {ts : List Token} {ns : List Node} {ts' : List Token}
    (d : DProg ts ns ts') : chack_type .EOF ts' = true := by
  induction d with
  | last h => exact h
  | step h d1 d2 ih => exact ih

theorem dprog_complete {ts : List Token} {ns : List Node} {tsEnd : List Token}
    (d : DProg ts ns tsEnd) :
    ∀ ds, ∃ f0 ns2 ds2, ∀ f, f0 ≤ f →
      program f ts (stateOf ds) = .ok (ns2, tsEnd, stateOf ds2) := by
  induction d with
  | last heof =>
    intro ds
    refine ⟨1, [], ds, ?_⟩
    intro f hf
    obtain ⟨g, rfl⟩ : ∃ g, f = g + 1 := ⟨f - 1, by omega⟩
    simp [program, heof]
  | step heof dst dpr ih =>
    intro ds
    obtain ⟨f1, n2, ds2, H1⟩ := dstmt_exact dst ds
    obtain ⟨f2, ns2, ds3, H2⟩ := ih ds2
    refine ⟨f1 + f2 + 1, n2 :: ns2, ds3, ?_⟩
    intro f hf
    obtain ⟨g, rfl⟩ : ∃ g, f = g + 1 := ⟨f - 1, by omega⟩
    simp [program, heof, H1 g (by omega), H2 g (by omega)]

theorem run_complete {ts : List Token} {ns0 : List Node} {tsEnd : List Token}
    (d : DProg ts ns0 tsEnd) :
    ∃ f0, ∀ f, f0 ≤ f → ∃ ns, run f ts = .ok ns := by
  obtain ⟨f0, ns2, ds2, H⟩ := dprog_complete d []
  refine ⟨f0, ?_⟩
  intro f hf
  refine ⟨ns2, ?_⟩
  have Hf := H f hf
  rw [stateOf_nil] at Hf
  unfold run
  simp [Hf, dprog_eof d]

/-- C2 (amended only in the non-emptiness part, which the empty-program
counterexample refutes: the grammar accepts the empty program, and `run`
then returns the empty sequence): for all input token streams accepted by
the grammar of spec §4.3 (`DProg`), `run` returns — for all sufficiently
large fuel in this embedding — an ordered sequence of statement trees; any
sequence `run` returns is derivable by the precedence grammar (so
multiplication/division bind tighter than addition/subtraction, which bind
tighter than relational operators, which bind tighter than equality, which
binds tighter than assignment), and it is non-empty if and only if the
stream does not begin at EOF. -/
theorem c2_run_on_accepted :
    (∀ (ts : List Token) (ns0 : List Node) (tsEnd : List Token),
       DProg ts ns0 tsEnd → ∃ f0, ∀ f, f0 ≤ f → ∃ ns, run f ts = .ok ns) ∧
    (∀ (f : Nat) (ts : List Token) (ns : List Node),
       run f ts = .ok ns →
       (∃ ts', DProg ts ns ts') ∧ (ns = [] ↔ chack_type .EOF ts = true)) :=
  ⟨fun _ _ _ d => run_complete d, run_sound_aux⟩

/-- C2 witness: the grammar-accepted stream `1 ;` — `run` succeeds on it,
and its concrete parse is derivable and non-empty. -/
theorem c2_run_on_accepted_witness :
    (∃ f0, ∀ f, f0 ≤ f →
       ∃ ns, run f [Token.number 1, Token.reserved ";", Token.eof] = .ok ns) ∧
    ((∃ ts', DProg [Token.number 2, Token.reserved ";", Token.eof]
        [number_node 2] ts') ∧
      ([number_node 2] = ([] : List Node) ↔
        chack_type .EOF [Token.number 2, Token.reserved ";", Token.eof] = true)) :=
  ⟨c2_run_on_accepted.1 _ _ _
     (DProg.step rfl
       (DStmt.mk (Deriv.exprA (Deriv.asgnBase (Deriv.eqyBase (Deriv.relBase
         (Deriv.addBase (Deriv.mulBase (Deriv.unryNone Deriv.primNum))))))))
       (DProg.last rfl)),
   c2_run_on_accepted.2 30 _ _ (by decide)⟩
